import Mathlib

/-!
Verification of the rustyclaw structured-action extraction and scheduling core.

The Rust source is embedded shallowly: strings are `List Char`, the `regex`
crate patterns used by `Agent::parse_cron_blocks`, `parse_save_blocks`,
`parse_memory_blocks` and `clean_response` are modelled by a small
backtracking matcher specialised to the pattern shapes that occur in the
source (literals, greedy or lazy repetition of a character class), with the
`regex` crate semantics: leftmost-first matching, `.` not matching a
newline, Unicode `\s`, and non-overlapping iteration for `captures_iter`
and `replace_all`.
-/

namespace Rustyclaw

def chars (s : String) : List Char := s.data

/-- Backtick character, written via its code point. -/
def btick : Char := Char.ofNat 96

/-- Unicode White_Space, the set recognised by the Rust function char::is_whitespace,
by str::trim and str::split_whitespace, and by the regex class \s. -/
def rustWs (c : Char) : Bool :=
  c = ' ' || c = '\t' || c = '\n' || c = '\x0b' || c = '\x0c' || c = '\r' ||
  c.toNat = 0x85 || c.toNat = 0xa0 || c.toNat = 0x1680 ||
  (0x2000 ≤ c.toNat && c.toNat ≤ 0x200a) ||
  c.toNat = 0x2028 || c.toNat = 0x2029 || c.toNat = 0x202f ||
  c.toNat = 0x205f || c.toNat = 0x3000

/-- The regex class `.` : any character other than a newline (the source
patterns never enable the dot-matches-newline flag). -/
def nonNl (c : Char) : Bool := c ≠ '\n'

/-- The regex class \S. -/
def nonWs (c : Char) : Bool := !rustWs c

/-- Rust str::trim on a character list. -/
def rustTrim (s : List Char) : List Char :=
  ((s.dropWhile rustWs).reverse.dropWhile rustWs).reverse

/-- Number of fields produced by Rust str::split_whitespace
(count of maximal runs of non-whitespace characters). -/
def fieldCountAux : Bool → List Char → Nat
  | _, [] => 0
  | inWord, c :: cs =>
    if rustWs c then fieldCountAux false cs
    else (if inWord then 0 else 1) + fieldCountAux true cs

def fieldCount (s : List Char) : Nat := fieldCountAux false s

/-- Rust str::starts_with for a pattern list. -/
def isPre : List Char → List Char → Bool
  | [], _ => true
  | _ :: _, [] => false
  | a :: as', b :: bs => a = b && isPre as' bs

/-- Rust str::contains (substring containment). -/
def isSub (n : List Char) : List Char → Bool
  | [] => isPre n []
  | c :: cs => isPre n (c :: cs) || isSub n cs

/-! ## A matcher for the regex shapes used in the source

Every pattern in agent/mod.rs is a concatenation of string literals and
repetitions (greedy `*`/`+` or lazy `*?`) of a single-character class, with
numbered capture groups around some repetitions.  `matchSeq` implements the
backtracking (leftmost-first) semantics of the regex crate on such a
sequence: a greedy repetition tries the longest possible run first, a lazy
one the shortest, and the first overall success in that priority order is
the match. -/

inductive RItem where
  | lits : List Char → RItem
  | starG : (Char → Bool) → RItem
  | starL : (Char → Bool) → RItem
  | plusG : (Char → Bool) → RItem

abbrev RPat := List (RItem × Option Nat)

abbrev Caps := List (Nat × List Char)

/-- Length of the maximal run of characters satisfying p. -/
def maxRun (p : Char → Bool) : List Char → Nat
  | [] => 0
  | c :: cs => if p c then maxRun p cs + 1 else 0

/-- First success of f over the candidate list, in order. -/
def firstSome (f : Nat → Option β) : List Nat → Option β
  | [] => none
  | k :: ks =>
    match f k with
    | some r => some r
    | none => firstSome f ks

def addCap (tag : Option Nat) (consumed : List Char) : Caps × List Char → Caps × List Char
  | (caps, rest) =>
    match tag with
    | none => (caps, rest)
    | some g => ((g, consumed) :: caps, rest)

/-- Match a pattern at the start of s; on success return the captures and
the unconsumed suffix.  The candidate run lengths of a repetition are tried
in the priority order of the backtracking of the regex crate. -/
def matchSeq : RPat → List Char → Option (Caps × List Char)
  | [], s => some ([], s)
  | (item, tag) :: rest, s =>
    match item with
    | RItem.lits l =>
      if isPre l s then (matchSeq rest (s.drop l.length)).map (addCap tag l) else none
    | RItem.starG p =>
      firstSome (fun k => (matchSeq rest (s.drop k)).map (addCap tag (s.take k)))
        ((List.range (maxRun p s + 1)).reverse)
    | RItem.starL p =>
      firstSome (fun k => (matchSeq rest (s.drop k)).map (addCap tag (s.take k)))
        (List.range (maxRun p s + 1))
    | RItem.plusG p =>
      firstSome (fun k => (matchSeq rest (s.drop k)).map (addCap tag (s.take k)))
        (((List.range (maxRun p s)).map (· + 1)).reverse)

/-- Leftmost match: the text before the match, its captures, and the text
after it. -/
def findSplit (pat : RPat) : List Char → Option (List Char × Caps × List Char)
  | [] =>
    match matchSeq pat [] with
    | some (caps, rest) => some ([], caps, rest)
    | none => none
  | c :: cs =>
    match matchSeq pat (c :: cs) with
    | some (caps, rest) => some ([], caps, rest)
    | none => (findSplit pat cs).map (fun r => (c :: r.1, r.2.1, r.2.2))

/-- Successive non-overlapping matches (captures_iter).  Every pattern in
the source consumes at least one character per match, so fuel equal to the
text length plus one never runs out. -/
def findAllAux (pat : RPat) : Nat → List Char → List Caps
  | 0, _ => []
  | fuel + 1, s =>
    match findSplit pat s with
    | none => []
    | some (_, caps, rest) => caps :: findAllAux pat fuel rest

def findAll (pat : RPat) (s : List Char) : List Caps :=
  findAllAux pat (s.length + 1) s

/-- replace_all with the empty replacement. -/
def replaceAllAux (pat : RPat) : Nat → List Char → List Char
  | 0, s => s
  | fuel + 1, s =>
    match findSplit pat s with
    | none => s
    | some (pre, _, rest) => pre ++ replaceAllAux pat fuel rest

def replaceAll (pat : RPat) (s : List Char) : List Char :=
  replaceAllAux pat (s.length + 1) s

/-- Value of a capture group (the source indexes cap[i] only when the
group is guaranteed to participate in the match). -/
def capGet (caps : Caps) (g : Nat) : List Char :=
  ((caps.find? (fun p => p.1 == g)).map (fun p => p.2)).getD []

/-! ## serde_json::from_str for serde_json::Value

Objects keep their members in insertion order; a duplicate key makes the
later member shadow the earlier one at lookup, as a map insert would.
Numbers are validated against the JSON grammar and kept as their raw
character run (no claim depends on a numeric value, only on a number not
being a string); float range overflow is not modelled. -/

inductive Json where
  | null : Json
  | bool : Bool → Json
  | num : List Char → Json
  | str : List Char → Json
  | arr : List Json → Json
  | obj : List (List Char × Json) → Json

/-- JSON insignificant whitespace. -/
def jsonWs (c : Char) : Bool := c = ' ' || c = '\t' || c = '\n' || c = '\r'

def skipWs (s : List Char) : List Char := s.dropWhile jsonWs

def hexVal (c : Char) : Option Nat :=
  if '0' ≤ c && c ≤ '9' then some (c.toNat - 48)
  else if 'a' ≤ c && c ≤ 'f' then some (c.toNat - 87)
  else if 'A' ≤ c && c ≤ 'F' then some (c.toNat - 55)
  else none

def escChar (c : Char) : Option Char :=
  if c = '"' then some '"'
  else if c = '\\' then some '\\'
  else if c = '/' then some '/'
  else if c = 'b' then some '\x08'
  else if c = 'f' then some '\x0c'
  else if c = 'n' then some '\n'
  else if c = 'r' then some '\r'
  else if c = 't' then some '\t'
  else none

/-- Body of a JSON string, after the opening quote: decodes escapes,
rejects raw control characters and unpaired surrogates, stops at the
closing quote. -/
def parseStrBody : Nat → List Char → Option (List Char × List Char)
  | 0, _ => none
  | _, [] => none
  | fuel + 1, c :: r =>
    if c = '"' then some ([], r)
    else if c = '\\' then
      match r with
      | [] => none
      | e :: r2 =>
        if e = 'u' then
          match r2 with
          | h1 :: h2 :: h3 :: h4 :: r3 =>
            match hexVal h1, hexVal h2, hexVal h3, hexVal h4 with
            | some a, some b, some c2, some d =>
              let n := ((a * 16 + b) * 16 + c2) * 16 + d
              if 0xd800 ≤ n ∧ n ≤ 0xdbff then
                match r3 with
                | '\\' :: 'u' :: g1 :: g2 :: g3 :: g4 :: r4 =>
                  match hexVal g1, hexVal g2, hexVal g3, hexVal g4 with
                  | some a2, some b2, some c3, some d2 =>
                    let m := ((a2 * 16 + b2) * 16 + c3) * 16 + d2
                    if 0xdc00 ≤ m ∧ m ≤ 0xdfff then
                      (parseStrBody fuel r4).map
                        (fun pr =>
                          (Char.ofNat (0x10000 + (n - 0xd800) * 0x400 + (m - 0xdc00)) :: pr.1,
                           pr.2))
                    else none
                  | _, _, _, _ => none
                | _ => none
              else if 0xdc00 ≤ n ∧ n ≤ 0xdfff then none
              else (parseStrBody fuel r3).map (fun pr => (Char.ofNat n :: pr.1, pr.2))
            | _, _, _, _ => none
          | _ => none
        else
          match escChar e with
          | some ec => (parseStrBody fuel r2).map (fun pr => (ec :: pr.1, pr.2))
          | none => none
    else if c.toNat < 0x20 then none
    else (parseStrBody fuel r).map (fun pr => (c :: pr.1, pr.2))

def numExp (raw : List Char) (s : List Char) : Option (Json × List Char) :=
  match s with
  | e :: rest =>
    if e = 'e' || e = 'E' then
      let (sg, r2) : List Char × List Char :=
        match rest with
        | '+' :: r => (['+'], r)
        | '-' :: r => (['-'], r)
        | _ => ([], rest)
      let ds := r2.takeWhile Char.isDigit
      if ds = [] then none
      else some (Json.num (raw ++ [e] ++ sg ++ ds), r2.dropWhile Char.isDigit)
    else some (Json.num raw, s)
  | [] => some (Json.num raw, [])

def numFrac (raw : List Char) (s : List Char) : Option (Json × List Char) :=
  match s with
  | '.' :: r =>
    let ds := r.takeWhile Char.isDigit
    if ds = [] then none
    else numExp (raw ++ ['.'] ++ ds) (r.dropWhile Char.isDigit)
  | _ => numExp raw s

/-- JSON number grammar: -? (0 | [1-9][0-9]*) frac? exp?. -/
def parseNum (s : List Char) : Option (Json × List Char) :=
  let (sign, s1) : List Char × List Char :=
    match s with
    | '-' :: r => (['-'], r)
    | _ => ([], s)
  match s1 with
  | c :: r =>
    if c = '0' then numFrac (sign ++ [c]) r
    else if c.isDigit then
      let ds := r.takeWhile Char.isDigit
      numFrac (sign ++ [c] ++ ds) (r.dropWhile Char.isDigit)
    else none
  | [] => none

mutual

def parseValue : Nat → List Char → Option (Json × List Char)
  | 0, _ => none
  | fuel + 1, s =>
    match skipWs s with
    | '\x7b' :: r => parseObj fuel r
    | '[' :: r => parseArr fuel r
    | '"' :: r => (parseStrBody (r.length + 1) r).map (fun pr => (Json.str pr.1, pr.2))
    | 't' :: 'r' :: 'u' :: 'e' :: r => some (Json.bool true, r)
    | 'f' :: 'a' :: 'l' :: 's' :: 'e' :: r => some (Json.bool false, r)
    | 'n' :: 'u' :: 'l' :: 'l' :: r => some (Json.null, r)
    | s' => parseNum s'

def parseObj : Nat → List Char → Option (Json × List Char)
  | 0, _ => none
  | fuel + 1, s =>
    match skipWs s with
    | '\x7d' :: r => some (Json.obj [], r)
    | s' => (parseMembers fuel s').map (fun pr => (Json.obj pr.1, pr.2))

def parseMembers : Nat → List Char → Option (List (List Char × Json) × List Char)
  | 0, _ => none
  | fuel + 1, s =>
    match skipWs s with
    | '"' :: r =>
      match parseStrBody (r.length + 1) r with
      | none => none
      | some (k, r2) =>
        match skipWs r2 with
        | ':' :: r3 =>
          match parseValue fuel r3 with
          | none => none
          | some (v, r4) =>
            match skipWs r4 with
            | ',' :: r5 => (parseMembers fuel r5).map (fun pr => ((k, v) :: pr.1, pr.2))
            | '\x7d' :: r5 => some ([(k, v)], r5)
            | _ => none
        | _ => none
    | _ => none

def parseArr : Nat → List Char → Option (Json × List Char)
  | 0, _ => none
  | fuel + 1, s =>
    match skipWs s with
    | ']' :: r => some (Json.arr [], r)
    | s' => (parseElems fuel s').map (fun pr => (Json.arr pr.1, pr.2))

def parseElems : Nat → List Char → Option (List Json × List Char)
  | 0, _ => none
  | fuel + 1, s =>
    match parseValue fuel s with
    | none => none
    | some (v, r) =>
      match skipWs r with
      | ',' :: r2 => (parseElems fuel r2).map (fun pr => (v :: pr.1, pr.2))
      | ']' :: r2 => some ([v], r2)
      | _ => none

end

/-- serde_json::from_str::<Value>: one value, then nothing but whitespace. -/
def jsonParse (s : List Char) : Option Json :=
  match parseValue (s.length + 1) s with
  | some (j, rest) => if skipWs rest = [] then some j else none
  | none => none

/-- Last binding for a key (a later duplicate member shadows an earlier
one, as in a map built by successive inserts). -/
def lookupLast (k : List Char) : List (List Char × Json) → Option Json
  | [] => none
  | (k', v) :: rest =>
    match lookupLast k rest with
    | some r => some r
    | none => if k' = k then some v else none

/-- serde_json Value::get with a string key: None unless the value is an
object that has the key. -/
def jget : Json → List Char → Option Json
  | Json.obj kvs, k => lookupLast k kvs
  | _, _ => none

/-- json[key].as_str().unwrap_or("") where the key is already known to be
present: indexing a present key yields its value, and as_str of anything
but a string is None. -/
def indexStr (j : Json) (k : List Char) : List Char :=
  match jget j k with
  | some (Json.str s) => s
  | _ => []

/-! ## Agent::parse_cron_blocks, parse_save_blocks, parse_memory_blocks,
clean_response (src/agent/mod.rs) -/

/-- Regex from parse_cron_blocks. -/
def cronPat : RPat :=
  [(RItem.lits (chars "```cron"), none), (RItem.starG rustWs, none),
   (RItem.lits ['\n'], none), (RItem.starL nonNl, some 1),
   (RItem.lits ['\n'], none), (RItem.starG rustWs, none),
   (RItem.lits (chars "```"), none)]

/-- Regex from parse_save_blocks. -/
def savePat : RPat :=
  [(RItem.lits (chars "```save:"), none), (RItem.plusG nonWs, some 1),
   (RItem.starG rustWs, none), (RItem.lits ['\n'], none),
   (RItem.starL nonNl, some 2), (RItem.lits ['\n'], none),
   (RItem.starG rustWs, none), (RItem.lits (chars "```"), none)]

/-- Regex from parse_memory_blocks. -/
def memPat : RPat :=
  [(RItem.lits (chars "```memory"), none), (RItem.starG rustWs, none),
   (RItem.lits ['\n'], none), (RItem.starL nonNl, some 1),
   (RItem.lits ['\n'], none), (RItem.starG rustWs, none),
   (RItem.lits (chars "```"), none)]

structure CronJobData where
  schedule : List Char
  task : List Char
  message : List Char
deriving DecidableEq

/-- Capture-group 1 bodies found by the cron regex, in match order. -/
def cronBlockBodies (text : List Char) : List (List Char) :=
  (findAll cronPat text).map (fun caps => capGet caps 1)

/-- The keys of the required triple that json.get does not find. -/
def missingKeys (j : Json) : List (List Char) :=
  [chars "schedule", chars "task", chars "message"].filter
    (fun k => (jget j k).isNone)

def joinComma : List (List Char) → List Char
  | [] => []
  | [x] => x
  | x :: xs => x ++ chars ", " ++ joinComma xs

/-- Loop body of parse_cron_blocks for one captured block: trim, JSON
decode, check the required keys, check the 5-field cron shape. -/
def processCronBlock (body : List Char) : Except (List Char) CronJobData :=
  match jsonParse (rustTrim body) with
  | none => Except.error (chars "Invalid JSON in cron block")
  | some j =>
    let missing := missingKeys j
    if missing.isEmpty then
      let schedule := indexStr j (chars "schedule")
      if fieldCount schedule = 5 then
        Except.ok ⟨schedule, indexStr j (chars "task"), indexStr j (chars "message")⟩
      else
        Except.error (chars "Invalid cron format \x27" ++ schedule ++
          chars "\x27 - needs 5 fields (minute hour day month weekday)")
    else
      Except.error (chars "Missing required fields: " ++ joinComma missing)

/-- Job pushed for one block, if any. -/
def blockJob (body : List Char) : Option CronJobData :=
  (processCronBlock body).toOption

/-- Error string pushed for one block, if any. -/
def blockErr (body : List Char) : Option (List Char) :=
  match processCronBlock body with
  | Except.error e => some e
  | Except.ok _ => none

/-- The accumulation loop of parse_cron_blocks: each block appends either
one job or one error. -/
def cronLoop : List (List Char) → List CronJobData × List (List Char)
  | [] => ([], [])
  | b :: bs =>
    let r := cronLoop bs
    match processCronBlock b with
    | Except.ok j => (j :: r.1, r.2)
    | Except.error e => (r.1, e :: r.2)

def parse_cron_blocks (text : List Char) : List CronJobData × List (List Char) :=
  cronLoop (cronBlockBodies text)

structure SaveBlock where
  filename : List Char
  content : List Char
deriving DecidableEq

def parse_save_blocks (text : List Char) : List SaveBlock :=
  (findAll savePat text).map (fun caps => ⟨capGet caps 1, capGet caps 2⟩)

def memBlockBodies (text : List Char) : List (List Char) :=
  (findAll memPat text).map (fun caps => capGet caps 1)

def parse_memory_blocks (text : List Char) : List (List Char) :=
  ((memBlockBodies text).map rustTrim).filter (fun s => !s.isEmpty)

def clean_response (text : List Char) : List Char :=
  rustTrim (replaceAll memPat (replaceAll savePat (replaceAll cronPat text)))

/-! ## Agent memory state (src/agent/mod.rs)

The agent owns the base prompt, a cached fact blob, a cached composite
prompt and the memory.md file; file contents are modelled as an optional
character list (none = the file is absent).  File reads and writes are the
success paths of the corresponding std::fs calls. -/

structure AgentState where
  file : Option (List Char)
  memC : List Char
  prompt : List Char
  base : List Char
deriving DecidableEq

/-- Agent::load_memory: contents of an existing file unless blank after
trimming; the empty blob otherwise. -/
def load_memory : Option (List Char) → List Char
  | some content => if rustTrim content = [] then [] else content
  | none => []

def memHeader : List Char :=
  chars "\n\n## Personal Memory\nThese are important facts to remember about the user:\n"

/-- Agent::build_full_prompt. -/
def build_full_prompt (base memory : List Char) : List Char :=
  if memory = [] then base else base ++ memHeader ++ memory

/-- Agent::new for a given base prompt and memory.md state. -/
def agentNew (base : List Char) (file : Option (List Char)) : AgentState :=
  let m := load_memory file
  ⟨file, m, build_full_prompt base m, base⟩

/-- Agent::save_to_memory: duplicate check by containment of the trimmed
fact in the cached blob; otherwise append "- <trimmed>\n" to the file (with
one blank separator line when the file already has content), reload the
blob and rebuild the prompt. -/
def save_to_memory (st : AgentState) (fact : List Char) : AgentState × Bool :=
  if isSub (rustTrim fact) st.memC then (st, false)
  else
    let factLine := chars "- " ++ rustTrim fact ++ ['\n']
    let old := st.file.getD []
    let newFile := if old = [] then factLine else old ++ '\n' :: factLine
    let m := load_memory (some newFile)
    (⟨some newFile, m, build_full_prompt st.base m, st.base⟩, true)

/-- Agent::clear_memory: remove the file, empty the blob, reset the prompt
to the base prompt. -/
def clear_memory (st : AgentState) : AgentState × Bool :=
  (⟨none, [], st.base, st.base⟩, true)

inductive AgentOp where
  | save : List Char → AgentOp
  | clear : AgentOp

def agentStep (st : AgentState) : AgentOp → AgentState
  | AgentOp.save f => (save_to_memory st f).1
  | AgentOp.clear => (clear_memory st).1

def agentRun (st : AgentState) : List AgentOp → AgentState
  | [] => st
  | op :: ops => agentRun (agentStep st op) ops

/-! ## Scheduler (src/scheduler/mod.rs) -/

/-- Callback registry: Scheduler::set_send_callback replaces the whole
vector with the one new consumer. -/
def set_send_callback (cbs : List α) (cb : α) : List α :=
  let _ := cbs
  [cb]

/-- Callback registry: Scheduler::add_send_callback pushes the consumer
unless one that is Arc::ptr_eq-identical is already in the vector.  (In the
source the Arc is freshly created inside the method, so the guard never
finds it; the conditional is modelled as written.) -/
def add_send_callback [DecidableEq α] (cbs : List α) (cb : α) : List α :=
  if cbs.any (fun c => c = cb) then cbs else cbs ++ [cb]

structure CronJob where
  id : Int
  schedule : List Char
  task : List Char
  message : List Char
  enabled : Bool
deriving DecidableEq

/-- The cron_jobs store plus the map of live timer handles. -/
structure SchedulerState where
  rows : List CronJob
  nextId : Int
  timers : List Int
deriving DecidableEq

/-- Memory::add_cron_job: insert an enabled row, return the fresh id. -/
def add_cron_job (st : SchedulerState) (schedule task message : List Char) :
    Int × SchedulerState :=
  (st.nextId,
   { st with
     rows := st.rows ++ [⟨st.nextId, schedule, task, message, true⟩],
     nextId := st.nextId + 1 })

/-- Scheduler::validate_cron.  cronOk abstracts Schedule::from_str of the external cron
crate (whose own error text is not modelled). -/
def validate_cron (cronOk : List Char → Bool) (schedule : List Char) :
    Except (List Char) Unit :=
  if fieldCount schedule ≠ 5 then
    Except.error (chars "Invalid cron format - needs 5 fields (minute hour day month weekday)")
  else if cronOk schedule then Except.ok ()
  else Except.error (chars "invalid cron expression")

/-- Scheduler::add_job: validate first; only on success insert the row and
arm a timer for the fresh id. -/
def add_job (cronOk : List Char → Bool) (st : SchedulerState)
    (schedule task message : List Char) : Except (List Char) Int × SchedulerState :=
  match validate_cron cronOk schedule with
  | Except.error e => (Except.error e, st)
  | Except.ok _ =>
    let r := add_cron_job st schedule task message
    (Except.ok r.1, { r.2 with timers := r.2.timers ++ [r.1] })

/-- serde_json Value::as_str. -/
def as_str : Json → Option (List Char)
  | Json.str s => some s
  | _ => none

/-! ## Helper lemmas -/

/-- The accumulation loop splits into the per-block job and error
contributions: each block yields exactly one of the two. -/
theorem cronLoop_eq_filterMap (bs : List (List Char)) :
    cronLoop bs = (bs.filterMap blockJob, bs.filterMap blockErr) := by
  induction bs with
  | nil => rfl
  | cons b bs ih =>
    simp only [cronLoop, ih, List.filterMap_cons, blockJob, blockErr]
    cases h : processCronBlock b <;> simp [h, Except.toOption]

theorem indexStr_of_str {j : Json} {k s : List Char}
    (h : jget j k = some (Json.str s)) : indexStr j k = s := by
  simp [indexStr, h]

theorem indexStr_of_nonstr {j : Json} {k : List Char} {v : Json}
    (h : jget j k = some v) (hv : as_str v = none) : indexStr j k = [] := by
  cases v <;> simp_all [indexStr, as_str]

theorem missingKeys_nil {j : Json}
    (hs : (jget j (chars "schedule")).isSome)
    (ht : (jget j (chars "task")).isSome)
    (hm : (jget j (chars "message")).isSome) : missingKeys j = [] := by
  have hs' : (jget j (chars "schedule")).isNone = false := by
    simp [Option.isNone_iff_eq_none]
    exact hs
  have ht' : (jget j (chars "task")).isNone = false := by
    simp [Option.isNone_iff_eq_none]
    exact ht
  have hm' : (jget j (chars "message")).isNone = false := by
    simp [Option.isNone_iff_eq_none]
    exact hm
  simp [missingKeys, List.filter, hs', ht', hm']

theorem indexStr_eq_getD {j : Json} {k : List Char} {v : Json}
    (h : jget j k = some v) : indexStr j k = (as_str v).getD [] := by
  cases v <;> simp [indexStr, as_str, h]

/-! ## Claim theorems: parse_cron_blocks -/

/-- C1: when the trimmed body of a discovered cron block is a JSON object whose
schedule, task and message are all strings and the schedule has exactly 5
whitespace-separated fields, the block contributes exactly one job, with
the JSON values verbatim, and no error; the whole parse result is the
concatenation of the per-block contributions. -/
theorem schedule_block_valid_parsed
    (t b : List Char) (j : Json) (sched task msg : List Char)
    (_hb : b ∈ cronBlockBodies t)
    (hj : jsonParse (rustTrim b) = some j)
    (hs : jget j (chars "schedule") = some (Json.str sched))
    (ht : jget j (chars "task") = some (Json.str task))
    (hm : jget j (chars "message") = some (Json.str msg))
    (h5 : fieldCount sched = 5) :
    parse_cron_blocks t =
      ((cronBlockBodies t).filterMap blockJob, (cronBlockBodies t).filterMap blockErr) ∧
    blockJob b = some ⟨sched, task, msg⟩ ∧ blockErr b = none := by
  have hmiss : missingKeys j = [] :=
    missingKeys_nil (by simp [hs]) (by simp [ht]) (by simp [hm])
  have hp : processCronBlock b = Except.ok ⟨sched, task, msg⟩ := by
    simp [processCronBlock, hj, hmiss, indexStr_of_str hs, indexStr_of_str ht,
      indexStr_of_str hm, h5]
  refine ⟨by rw [parse_cron_blocks, cronLoop_eq_filterMap], ?_, ?_⟩
  · simp [blockJob, hp, Except.toOption]
  · simp [blockErr, hp]

/-- Witness for C1 on a concrete response text. -/
theorem schedule_block_valid_parsed_witness :
    parse_cron_blocks (chars "```cron\n\x7b\"schedule\": \"0 9 * * *\", \"task\": \"t\", \"message\": \"m\"\x7d\n```") =
      ((cronBlockBodies (chars "```cron\n\x7b\"schedule\": \"0 9 * * *\", \"task\": \"t\", \"message\": \"m\"\x7d\n```")).filterMap blockJob,
       (cronBlockBodies (chars "```cron\n\x7b\"schedule\": \"0 9 * * *\", \"task\": \"t\", \"message\": \"m\"\x7d\n```")).filterMap blockErr) ∧
    blockJob (chars "\x7b\"schedule\": \"0 9 * * *\", \"task\": \"t\", \"message\": \"m\"\x7d") =
      some ⟨chars "0 9 * * *", chars "t", chars "m"⟩ ∧
    blockErr (chars "\x7b\"schedule\": \"0 9 * * *\", \"task\": \"t\", \"message\": \"m\"\x7d") = none :=
  schedule_block_valid_parsed _ _
    (Json.obj [(chars "schedule", Json.str (chars "0 9 * * *")),
               (chars "task", Json.str (chars "t")),
               (chars "message", Json.str (chars "m"))])
    _ _ _ (by decide) (by rfl) (by rfl) (by rfl) (by rfl) (by decide)

/-- C7: a discovered cron block whose trimmed body is valid JSON that does
not carry every required key contributes no job and exactly one error
joining the missing keys, and the other blocks of the text contribute
independently. -/
theorem schedule_block_missing_keys
    (t b : List Char) (j : Json)
    (_hb : b ∈ cronBlockBodies t)
    (hj : jsonParse (rustTrim b) = some j)
    (hne : missingKeys j ≠ []) :
    parse_cron_blocks t =
      ((cronBlockBodies t).filterMap blockJob, (cronBlockBodies t).filterMap blockErr) ∧
    blockJob b = none ∧
    blockErr b = some (chars "Missing required fields: " ++ joinComma (missingKeys j)) := by
  have h0 : (missingKeys j).isEmpty = false := by
    cases hmk : missingKeys j with
    | nil => exact absurd hmk hne
    | cons a l => rfl
  have hp : processCronBlock b =
      Except.error (chars "Missing required fields: " ++ joinComma (missingKeys j)) := by
    simp [processCronBlock, hj, h0]
  refine ⟨by rw [parse_cron_blocks, cronLoop_eq_filterMap], ?_, ?_⟩
  · simp [blockJob, hp, Except.toOption]
  · simp [blockErr, hp]

/-- Witness for C7: a block missing task and message. -/
theorem schedule_block_missing_keys_witness :
    parse_cron_blocks (chars "```cron\n\x7b\"schedule\": \"0 9 * * *\"\x7d\n```") =
      ((cronBlockBodies (chars "```cron\n\x7b\"schedule\": \"0 9 * * *\"\x7d\n```")).filterMap blockJob,
       (cronBlockBodies (chars "```cron\n\x7b\"schedule\": \"0 9 * * *\"\x7d\n```")).filterMap blockErr) ∧
    blockJob (chars "\x7b\"schedule\": \"0 9 * * *\"\x7d") = none ∧
    blockErr (chars "\x7b\"schedule\": \"0 9 * * *\"\x7d") =
      some (chars "Missing required fields: " ++
        joinComma (missingKeys (Json.obj [(chars "schedule", Json.str (chars "0 9 * * *"))]))) :=
  schedule_block_missing_keys _ _
    (Json.obj [(chars "schedule", Json.str (chars "0 9 * * *"))])
    (by decide) (by rfl) (by decide)

/-- C8: a discovered cron block whose JSON object has all three keys but
whose schedule string does not split into exactly 5 fields contributes no
job and exactly one error naming the offending schedule string. -/
theorem schedule_block_bad_field_count
    (t b : List Char) (j : Json) (sched : List Char)
    (_hb : b ∈ cronBlockBodies t)
    (hj : jsonParse (rustTrim b) = some j)
    (hs : jget j (chars "schedule") = some (Json.str sched))
    (ht : (jget j (chars "task")).isSome)
    (hm : (jget j (chars "message")).isSome)
    (h5 : fieldCount sched ≠ 5) :
    parse_cron_blocks t =
      ((cronBlockBodies t).filterMap blockJob, (cronBlockBodies t).filterMap blockErr) ∧
    blockJob b = none ∧
    blockErr b = some (chars "Invalid cron format \x27" ++ sched ++
      chars "\x27 - needs 5 fields (minute hour day month weekday)") := by
  have hmiss : missingKeys j = [] := missingKeys_nil (by simp [hs]) ht hm
  have hp : processCronBlock b =
      Except.error (chars "Invalid cron format \x27" ++ sched ++
        chars "\x27 - needs 5 fields (minute hour day month weekday)") := by
    simp [processCronBlock, hj, hmiss, indexStr_of_str hs, h5]
  refine ⟨by rw [parse_cron_blocks, cronLoop_eq_filterMap], ?_, ?_⟩
  · simp [blockJob, hp, Except.toOption]
  · simp [blockErr, hp]

/-- Witness for C8: a 4-field schedule. -/
theorem schedule_block_bad_field_count_witness :
    parse_cron_blocks (chars "```cron\n\x7b\"schedule\": \"1 2 3 4\", \"task\": \"t\", \"message\": \"m\"\x7d\n```") =
      ((cronBlockBodies (chars "```cron\n\x7b\"schedule\": \"1 2 3 4\", \"task\": \"t\", \"message\": \"m\"\x7d\n```")).filterMap blockJob,
       (cronBlockBodies (chars "```cron\n\x7b\"schedule\": \"1 2 3 4\", \"task\": \"t\", \"message\": \"m\"\x7d\n```")).filterMap blockErr) ∧
    blockJob (chars "\x7b\"schedule\": \"1 2 3 4\", \"task\": \"t\", \"message\": \"m\"\x7d") = none ∧
    blockErr (chars "\x7b\"schedule\": \"1 2 3 4\", \"task\": \"t\", \"message\": \"m\"\x7d") =
      some (chars "Invalid cron format \x27" ++ chars "1 2 3 4" ++
        chars "\x27 - needs 5 fields (minute hour day month weekday)") :=
  schedule_block_bad_field_count _ _
    (Json.obj [(chars "schedule", Json.str (chars "1 2 3 4")),
               (chars "task", Json.str (chars "t")),
               (chars "message", Json.str (chars "m"))])
    _ (by decide) (by rfl) (by rfl) (by rfl) (by rfl) (by decide)

/-- C10: with all three keys present, non-string values are never reported
as missing: a non-string schedule behaves as the empty string and draws the
invalid-cron-format error naming the empty string, while non-string task or
message values are silently replaced by the empty string in the job. -/
theorem schedule_block_nonstring_values
    (t b : List Char) (j : Json)
    (_hb : b ∈ cronBlockBodies t)
    (hj : jsonParse (rustTrim b) = some j) :
    (∀ v, jget j (chars "schedule") = some v → as_str v = none →
      (jget j (chars "task")).isSome → (jget j (chars "message")).isSome →
      blockJob b = none ∧
      blockErr b = some (chars "Invalid cron format \x27\x27 - needs 5 fields (minute hour day month weekday)")) ∧
    (∀ sched vt vm, jget j (chars "schedule") = some (Json.str sched) →
      fieldCount sched = 5 →
      jget j (chars "task") = some vt →
      jget j (chars "message") = some vm →
      blockJob b = some ⟨sched, (as_str vt).getD [], (as_str vm).getD []⟩ ∧
      blockErr b = none) := by
  constructor
  · intro v hv hnv ht hm
    have hmiss : missingKeys j = [] := missingKeys_nil (by simp [hv]) ht hm
    have hp : processCronBlock b =
        Except.error (chars "Invalid cron format \x27\x27 - needs 5 fields (minute hour day month weekday)") := by
      simp [processCronBlock, hj, hmiss, indexStr_of_nonstr hv hnv,
        fieldCount, fieldCountAux]
      rfl
    exact ⟨by simp [blockJob, hp, Except.toOption], by simp [blockErr, hp]⟩
  · intro sched vt vm hs h5 ht hm
    have hmiss : missingKeys j = [] :=
      missingKeys_nil (by simp [hs]) (by simp [ht]) (by simp [hm])
    have hp : processCronBlock b =
        Except.ok ⟨sched, (as_str vt).getD [], (as_str vm).getD []⟩ := by
      simp [processCronBlock, hj, hmiss, indexStr_of_str hs,
        indexStr_eq_getD ht, indexStr_eq_getD hm, h5]
    exact ⟨by simp [blockJob, hp, Except.toOption], by simp [blockErr, hp]⟩

/-- Witness for C10: a numeric schedule in one block, a numeric task and a
null message in another. -/
theorem schedule_block_nonstring_values_witness :
    (blockJob (chars "\x7b\"schedule\": 5, \"task\": \"t\", \"message\": \"m\"\x7d") = none ∧
     blockErr (chars "\x7b\"schedule\": 5, \"task\": \"t\", \"message\": \"m\"\x7d") =
       some (chars "Invalid cron format \x27\x27 - needs 5 fields (minute hour day month weekday)")) ∧
    (blockJob (chars "\x7b\"schedule\": \"1 2 3 4 5\", \"task\": 7, \"message\": null\x7d") =
       some ⟨chars "1 2 3 4 5", (as_str (Json.num (chars "7"))).getD [],
             (as_str Json.null).getD []⟩ ∧
     blockErr (chars "\x7b\"schedule\": \"1 2 3 4 5\", \"task\": 7, \"message\": null\x7d") = none) :=
  ⟨(schedule_block_nonstring_values
      (chars "```cron\n\x7b\"schedule\": 5, \"task\": \"t\", \"message\": \"m\"\x7d\n```")
      (chars "\x7b\"schedule\": 5, \"task\": \"t\", \"message\": \"m\"\x7d")
      (Json.obj [(chars "schedule", Json.num (chars "5")),
                 (chars "task", Json.str (chars "t")),
                 (chars "message", Json.str (chars "m"))])
      (by decide) (by rfl)).1
    (Json.num (chars "5")) (by rfl) (by rfl) (by rfl) (by rfl),
   (schedule_block_nonstring_values
      (chars "```cron\n\x7b\"schedule\": \"1 2 3 4 5\", \"task\": 7, \"message\": null\x7d\n```")
      (chars "\x7b\"schedule\": \"1 2 3 4 5\", \"task\": 7, \"message\": null\x7d")
      (Json.obj [(chars "schedule", Json.str (chars "1 2 3 4 5")),
                 (chars "task", Json.num (chars "7")),
                 (chars "message", Json.null)])
      (by decide) (by rfl)).2
    (chars "1 2 3 4 5") (Json.num (chars "7")) Json.null
    (by rfl) (by decide) (by rfl) (by rfl)⟩

/-! ## Claim theorems: callback registry and add_job -/

/-- C2: exclusive registration replaces the whole set with the one given
consumer; additive registration appends at the end unless a consumer with
the same identity is already present, in which case the registry is
unchanged. -/
theorem callback_registry_modes {α : Type} [DecidableEq α] (cbs : List α) (cb : α) :
    set_send_callback cbs cb = [cb] ∧
    (cb ∈ cbs → add_send_callback cbs cb = cbs) ∧
    (cb ∉ cbs → add_send_callback cbs cb = cbs ++ [cb]) := by
  refine ⟨rfl, fun h => ?_, fun h => ?_⟩
  · rw [add_send_callback, if_pos]
    simp only [List.any_eq_true, decide_eq_true_eq]
    exact ⟨cb, h, rfl⟩
  · rw [add_send_callback, if_neg]
    simp only [List.any_eq_true, decide_eq_true_eq, not_exists]
    rintro x ⟨hx, rfl⟩
    exact h hx

/-- Witness for C2 over a concrete registry of identities. -/
theorem callback_registry_modes_witness :
    set_send_callback [1, 2] 3 = [3] ∧ add_send_callback [1, 2] 1 = [1, 2] ∧
    add_send_callback [1, 2] 3 = [1, 2, 3] :=
  ⟨(callback_registry_modes [1, 2] 3).1,
   (callback_registry_modes [1, 2] 1).2.1 (by decide),
   (callback_registry_modes [1, 2] 3).2.2 (by decide)⟩

/-- C6: a schedule that does not have exactly 5 whitespace-separated
fields, or that the cron evaluator rejects, makes add_job fail with a
non-empty error while the job store and the timer map stay unchanged. -/
theorem add_job_invalid_no_mutation
    (cronOk : List Char → Bool) (st : SchedulerState) (schedule task message : List Char)
    (h : fieldCount schedule ≠ 5 ∨ cronOk schedule = false) :
    (∃ e, (add_job cronOk st schedule task message).1 = Except.error e ∧ e ≠ []) ∧
    (add_job cronOk st schedule task message).2 = st := by
  by_cases h5 : fieldCount schedule = 5
  · have hok : cronOk schedule = false := by
      rcases h with h | h
      · exact absurd h5 h
      · exact h
    have hv : validate_cron cronOk schedule =
        Except.error (chars "invalid cron expression") := by
      simp [validate_cron, h5, hok]
    refine ⟨⟨chars "invalid cron expression", ?_, by decide⟩, ?_⟩ <;>
      simp [add_job, hv]
  · have hv : validate_cron cronOk schedule =
        Except.error (chars "Invalid cron format - needs 5 fields (minute hour day month weekday)") := by
      simp [validate_cron, h5]
    refine ⟨⟨chars "Invalid cron format - needs 5 fields (minute hour day month weekday)", ?_, by decide⟩, ?_⟩ <;>
      simp [add_job, hv]

/-- Witness for C6: a 3-field schedule against an accepting evaluator. -/
theorem add_job_invalid_no_mutation_witness :
    (∃ e, (add_job (fun _ => true) ⟨[], 1, []⟩ (chars "* * *") (chars "t") (chars "m")).1 =
      Except.error e ∧ e ≠ []) ∧
    (add_job (fun _ => true) ⟨[], 1, []⟩ (chars "* * *") (chars "t") (chars "m")).2 =
      ⟨[], 1, []⟩ :=
  add_job_invalid_no_mutation (fun _ => true) ⟨[], 1, []⟩ (chars "* * *")
    (chars "t") (chars "m") (Or.inl (by decide))

/-! ## Claim theorems: agent memory state -/

theorem build_full_prompt_nil (base : List Char) : build_full_prompt base [] = base := by
  simp [build_full_prompt]

theorem agentStep_base (st : AgentState) (op : AgentOp) :
    (agentStep st op).base = st.base := by
  cases op with
  | save f =>
    simp only [agentStep, save_to_memory]
    split <;> rfl
  | clear => rfl

theorem agentRun_base : ∀ (ops : List AgentOp) (st : AgentState),
    (agentRun st ops).base = st.base := by
  intro ops
  induction ops with
  | nil => intro st; rfl
  | cons op ops ih =>
    intro st
    rw [agentRun, ih, agentStep_base]

theorem agentStep_prompt (st : AgentState) (op : AgentOp)
    (h : st.prompt = build_full_prompt st.base st.memC) :
    (agentStep st op).prompt =
      build_full_prompt (agentStep st op).base (agentStep st op).memC := by
  cases op with
  | save f =>
    simp only [agentStep, save_to_memory]
    split
    · exact h
    · rfl
  | clear =>
    simp only [agentStep, clear_memory]
    exact (build_full_prompt_nil st.base).symm

theorem agentRun_prompt : ∀ (ops : List AgentOp) (st : AgentState),
    st.prompt = build_full_prompt st.base st.memC →
    (agentRun st ops).prompt =
      build_full_prompt (agentRun st ops).base (agentRun st ops).memC := by
  intro ops
  induction ops with
  | nil => intro st h; exact h
  | cons op ops ih =>
    intro st h
    rw [agentRun]
    exact ih _ (agentStep_prompt st op h)

theorem agentRun_append : ∀ (ops : List AgentOp) (st : AgentState) (op : AgentOp),
    agentRun st (ops ++ [op]) = agentStep (agentRun st ops) op := by
  intro ops
  induction ops with
  | nil => intro st op; rfl
  | cons o ops ih =>
    intro st op
    rw [List.cons_append, agentRun, agentRun, ih]

/-- C4: after any sequence of save and clear operations starting from a
fresh agent, the cached composite prompt is the base prompt alone when the
cached fact blob is empty and the base prompt followed by the fixed
personal-memory header and the raw blob otherwise; right after a clear the
prompt is the original base prompt and the blob is empty. -/
theorem prompt_memory_invariant
    (base : List Char) (file : Option (List Char)) (ops : List AgentOp) :
    ((agentRun (agentNew base file) ops).prompt =
      (if (agentRun (agentNew base file) ops).memC = [] then base
       else base ++ memHeader ++ (agentRun (agentNew base file) ops).memC)) ∧
    (agentRun (agentNew base file) (ops ++ [AgentOp.clear])).prompt = base ∧
    (agentRun (agentNew base file) (ops ++ [AgentOp.clear])).memC = [] := by
  have hbase : (agentRun (agentNew base file) ops).base = base := by
    rw [agentRun_base]
    rfl
  have hinv := agentRun_prompt ops (agentNew base file) rfl
  refine ⟨?_, ?_, ?_⟩
  · rw [hinv, hbase]
    rfl
  · rw [agentRun_append]
    show (agentRun (agentNew base file) ops).base = base
    exact hbase
  · rw [agentRun_append]
    rfl

theorem isPre_append_self : ∀ (n t : List Char), isPre n (n ++ t) = true := by
  intro n
  induction n with
  | nil => intro t; rfl
  | cons c n ih => intro t; simp [isPre, ih]

theorem isSub_of_isPre : ∀ (n s : List Char), isPre n s = true → isSub n s = true := by
  intro n s h
  cases s with
  | nil => exact h
  | cons c cs => simp [isSub, h]

theorem isSub_cons (n : List Char) (c : Char) (s : List Char)
    (h : isSub n s = true) : isSub n (c :: s) = true := by
  rw [isSub, h]
  simp

theorem isSub_append_pre : ∀ (pre n s : List Char),
    isSub n s = true → isSub n (pre ++ s) = true := by
  intro pre
  induction pre with
  | nil => intro n s h; exact h
  | cons c pre ih =>
    intro n s h
    rw [List.cons_append]
    exact isSub_cons _ _ _ (ih n s h)

theorem isSub_middle (n pre t : List Char) : isSub n (pre ++ n ++ t) = true := by
  rw [List.append_assoc]
  exact isSub_append_pre pre n (n ++ t) (isSub_of_isPre n (n ++ t) (isPre_append_self n t))

theorem trim_ne_nil {l : List Char} {c : Char}
    (hc : c ∈ l) (hw : rustWs c = false) : rustTrim l ≠ [] := by
  intro h
  rw [rustTrim, List.reverse_eq_nil_iff, List.dropWhile_eq_nil_iff] at h
  have hc' : c ∈ l.dropWhile rustWs := by
    have hsplit : l.takeWhile rustWs ++ l.dropWhile rustWs = l :=
      List.takeWhile_append_dropWhile rustWs l
    rw [← hsplit] at hc
    rcases List.mem_append.mp hc with h' | h'
    · have hws := List.mem_takeWhile_imp h'
      rw [hw] at hws
      cases hws
    · exact h'
  have hws := h c (List.mem_reverse.mpr hc')
  rw [hw] at hws
  cases hws

/-- After any save_to_memory, the trimmed fact is contained in the cached
blob: either it already was (the call was a no-op) or the reloaded file now
carries the appended fact line. -/
theorem save_memC_contains (st : AgentState) (f : List Char) :
    isSub (rustTrim f) (save_to_memory st f).1.memC = true := by
  by_cases h : isSub (rustTrim f) st.memC = true
  · simp [save_to_memory, h]
  · have h' : isSub (rustTrim f) st.memC = false := by
      cases hb : isSub (rustTrim f) st.memC
      · rfl
      · exact absurd hb h
    simp only [save_to_memory, h', Bool.false_eq_true, if_false]
    set factLine := chars "- " ++ rustTrim f ++ ['\n'] with hfl
    set old := st.file.getD [] with hold
    set newFile := if old = [] then factLine else old ++ '\n' :: factLine with hnf
    have hdash : '-' ∈ newFile := by
      have hdm : '-' ∈ chars "- " := by decide
      have hfact : '-' ∈ factLine := by
        rw [hfl]
        exact List.mem_append_left _ (List.mem_append_left _ hdm)
      rw [hnf]
      split
      · exact hfact
      · exact List.mem_append_right _ (List.mem_cons_of_mem _ hfact)
    have hne : rustTrim newFile ≠ [] := trim_ne_nil hdash (by decide)
    have hload : load_memory (some newFile) = newFile := by
      simp [load_memory, hne]
    show isSub (rustTrim f) (load_memory (some newFile)) = true
    rw [hload]
    have hin : isSub (rustTrim f) factLine = true := by
      rw [hfl]
      exact isSub_middle (rustTrim f) (chars "- ") ['\n']
    rw [hnf]
    split
    · exact hin
    · exact isSub_append_pre old _ _ (isSub_cons _ '\n' _ hin)

/-- C5: a fact whose trimmed text is already contained in the cached blob
is rejected: save_to_memory returns false and changes nothing (neither the
cached state nor the file); in particular saving the same fact twice, or a
whitespace-padded variant of it, makes the second call a rejected no-op. -/
theorem save_fact_dedup :
    (∀ (st : AgentState) (fact : List Char),
      isSub (rustTrim fact) st.memC = true → save_to_memory st fact = (st, false)) ∧
    (∀ (st : AgentState) (f g : List Char), rustTrim g = rustTrim f →
      save_to_memory (save_to_memory st f).1 g = ((save_to_memory st f).1, false)) := by
  have part1 : ∀ (st : AgentState) (fact : List Char),
      isSub (rustTrim fact) st.memC = true → save_to_memory st fact = (st, false) := by
    intro st fact h
    simp [save_to_memory, h]
  refine ⟨part1, fun st f g hg => part1 _ g ?_⟩
  rw [hg]
  exact save_memC_contains st f

/-- Witness for C5: saving "X" and then " X " (and "X" again) on a fresh
agent. -/
theorem save_fact_dedup_witness :
    save_to_memory (save_to_memory (agentNew (chars "p") none) (chars "X")).1 (chars " X ") =
      ((save_to_memory (agentNew (chars "p") none) (chars "X")).1, false) ∧
    save_to_memory (save_to_memory (agentNew (chars "p") none) (chars "X")).1 (chars "X") =
      ((save_to_memory (agentNew (chars "p") none) (chars "X")).1, false) :=
  ⟨save_fact_dedup.2 _ (chars "X") (chars " X ") (by decide),
   save_fact_dedup.1 _ (chars "X") (by decide)⟩

/-! ## Metatheory of the matcher

These lemmas locate the matches of the three block patterns inside a text
assembled from backtick-free prose and well-formed single-line-body blocks,
in order to settle the discovery claims. -/

theorem addCap_none (l : List Char) (r : Caps × List Char) : addCap none l r = r := by
  cases r
  rfl

theorem map_addCap_none (l : List Char) (o : Option (Caps × List Char)) :
    o.map (addCap none l) = o := by
  cases o with
  | none => rfl
  | some r => simp [addCap_none]

theorem matchSeq_lits_cons (l : List Char) (tag : Option Nat) (ps : RPat) (s : List Char)
    (h : isPre l s = true) :
    matchSeq ((RItem.lits l, tag) :: ps) s =
      (matchSeq ps (s.drop l.length)).map (addCap tag l) := by
  simp [matchSeq, h]

theorem matchSeq_lits_none (l : List Char) (tag : Option Nat) (ps : RPat) (s : List Char)
    (h : isPre l s = false) :
    matchSeq ((RItem.lits l, tag) :: ps) s = none := by
  simp [matchSeq, h]

theorem matchSeq_starG (p : Char → Bool) (tag : Option Nat) (ps : RPat) (s : List Char) :
    matchSeq ((RItem.starG p, tag) :: ps) s =
      firstSome (fun k => (matchSeq ps (s.drop k)).map (addCap tag (s.take k)))
        ((List.range (maxRun p s + 1)).reverse) := rfl

theorem matchSeq_starL (p : Char → Bool) (tag : Option Nat) (ps : RPat) (s : List Char) :
    matchSeq ((RItem.starL p, tag) :: ps) s =
      firstSome (fun k => (matchSeq ps (s.drop k)).map (addCap tag (s.take k)))
        (List.range (maxRun p s + 1)) := rfl

theorem matchSeq_plusG (p : Char → Bool) (tag : Option Nat) (ps : RPat) (s : List Char) :
    matchSeq ((RItem.plusG p, tag) :: ps) s =
      firstSome (fun k => (matchSeq ps (s.drop k)).map (addCap tag (s.take k)))
        (((List.range (maxRun p s)).map (· + 1)).reverse) := rfl

theorem isPre_cons_false {a b : Char} (as bs : List Char) (h : a ≠ b) :
    isPre (a :: as) (b :: bs) = false := by
  simp [isPre, h]

theorem maxRun_cons_neg {p : Char → Bool} {c : Char} (cs : List Char) (h : p c = false) :
    maxRun p (c :: cs) = 0 := by
  simp [maxRun, h]

theorem maxRun_cons_pos {p : Char → Bool} {c : Char} (cs : List Char) (h : p c = true) :
    maxRun p (c :: cs) = maxRun p cs + 1 := by
  simp [maxRun, h]

theorem maxRun_all_stop {p : Char → Bool} (l : List Char) {z0 : Char} (zs : List Char)
    (hl : ∀ c ∈ l, p c = true) (hz : p z0 = false) :
    maxRun p (l ++ z0 :: zs) = l.length := by
  induction l with
  | nil => exact maxRun_cons_neg zs hz
  | cons c l ih =>
    rw [List.cons_append, maxRun_cons_pos _ (hl c (List.mem_cons_self c l)),
      ih (fun x hx => hl x (List.mem_cons_of_mem c hx))]
    rfl

theorem firstSome_cons_some {f : Nat → Option β} {k : Nat} (ks : List Nat) {v : β}
    (h : f k = some v) : firstSome f (k :: ks) = some v := by
  simp [firstSome, h]

theorem firstSome_cons_none {f : Nat → Option β} {k : Nat} (ks : List Nat)
    (h : f k = none) : firstSome f (k :: ks) = firstSome f ks := by
  simp [firstSome, h]

theorem firstSome_single (f : Nat → Option β) (k : Nat) :
    firstSome f [k] = f k := by
  cases h : f k with
  | none => simp [firstSome, h]
  | some v => simp [firstSome, h]

theorem firstSome_append_none {f : Nat → Option β} (ks1 ks2 : List Nat)
    (h : ∀ k ∈ ks1, f k = none) :
    firstSome f (ks1 ++ ks2) = firstSome f ks2 := by
  induction ks1 with
  | nil => rfl
  | cons k ks ih =>
    rw [List.cons_append, firstSome_cons_none _ (h k (List.mem_cons_self k ks))]
    exact ih (fun x hx => h x (List.mem_cons_of_mem k hx))

/-- A lazy repetition whose shorter runs all fail settles on run length m. -/
theorem firstSome_range_lazy {f : Nat → Option β} (m : Nat)
    (h : ∀ k, k < m → f k = none) :
    firstSome f (List.range (m + 1)) = f m := by
  rw [List.range_succ,
    firstSome_append_none _ _ (fun k hk => h k (List.mem_range.mp hk))]
  exact firstSome_single f m

theorem range_map_succ_reverse (n : Nat) :
    ((List.range (n + 1)).map (· + 1)).reverse =
      (n + 1) :: ((List.range n).map (· + 1)).reverse := by
  rw [List.range_succ, List.map_append, List.reverse_append]
  rfl

/-- The text of a fenced block with the given opening line and a one-line
body, followed by the rest of the response. -/
def blockText (openLine body rest : List Char) : List Char :=
  openLine ++ ('\n' :: (body ++ ('\n' :: (chars "```" ++ rest))))

/-- Inside the body region, the literal newline expected next by the
pattern cannot match before the body ends. -/
theorem matchSeq_nl_fail (tag : Option Nat) (ps : RPat) :
    ∀ (b t : List Char) (k : Nat), k < b.length → '\n' ∉ b →
      matchSeq ((RItem.lits ['\n'], tag) :: ps) ((b ++ t).drop k) = none := by
  intro b
  induction b with
  | nil =>
    intro t k hk _
    exact absurd hk (by simp)
  | cons c b ih =>
    intro t k hk hnl
    have hc : '\n' ≠ c := fun h => hnl (by rw [h]; exact List.mem_cons_self c b)
    cases k with
    | zero =>
      rw [List.cons_append, List.drop_zero]
      exact matchSeq_lits_none _ _ _ _ (isPre_cons_false _ _ hc)
    | succ k =>
      rw [List.cons_append, List.drop_succ_cons]
      exact ih t k (Nat.lt_of_succ_lt_succ hk)
        (fun h => hnl (List.mem_cons_of_mem c h))

theorem matchSeq_close_fence (rest : List Char) :
    matchSeq [(RItem.lits (chars "```"), none)] (chars "```" ++ rest) =
      some ([], rest) := by
  rw [matchSeq_lits_cons _ _ _ _ (isPre_append_self _ _), List.drop_left,
    map_addCap_none]
  rfl

theorem matchSeq_ws_fence (rest : List Char) :
    matchSeq [(RItem.starG rustWs, none), (RItem.lits (chars "```"), none)]
      (chars "```" ++ rest) = some ([], rest) := by
  rw [matchSeq_starG]
  have hm : maxRun rustWs (chars "```" ++ rest) = 0 := by
    have h1 : chars "```" ++ rest = btick :: ([btick, btick] ++ rest) := by
      rw [show chars "```" = [btick, btick, btick] from by decide]
      rfl
    rw [h1]
    exact maxRun_cons_neg _ (by decide)
  rw [hm, show (List.range (0 + 1)).reverse = [0] from by decide, firstSome_single]
  simp only [List.drop_zero, List.take_zero, map_addCap_none]
  exact matchSeq_close_fence rest

theorem matchSeq_nl_ws_fence (rest : List Char) :
    matchSeq [(RItem.lits ['\n'], none), (RItem.starG rustWs, none),
      (RItem.lits (chars "```"), none)] ('\n' :: (chars "```" ++ rest)) =
      some ([], rest) := by
  rw [matchSeq_lits_cons _ _ _ _ (by simp [isPre])]
  simp only [List.length_singleton, List.drop_succ_cons, List.drop_zero, map_addCap_none]
  exact matchSeq_ws_fence rest


/-- The lazy dot run captures exactly the one-line body: every shorter run
leaves a non-newline where the pattern requires the newline, and the full
run is followed by the closing fence. -/
theorem matchSeq_body_tail (g : Nat) (b rest : List Char)
    (hnl : '\n' ∉ b) :
    matchSeq [(RItem.starL nonNl, some g), (RItem.lits ['\n'], none),
      (RItem.starG rustWs, none), (RItem.lits (chars "```"), none)]
      (b ++ ('\n' :: (chars "```" ++ rest))) =
      some ([(g, b)], rest) := by
  rw [matchSeq_starL]
  have hm : maxRun nonNl (b ++ ('\n' :: (chars "```" ++ rest))) = b.length := by
    apply maxRun_all_stop
    · intro c hc
      simp only [nonNl, ne_eq, decide_eq_true_eq]
      exact fun h => hnl (h ▸ hc)
    · simp [nonNl]
  rw [hm, firstSome_range_lazy]
  · rw [List.drop_left, List.take_left, matchSeq_nl_ws_fence]
    rfl
  · intro k hk
    rw [matchSeq_nl_fail none _ b _ k hk hnl]
    rfl

/-- A literal starting with a character that does not occur in b cannot
match at any position strictly inside b. -/
theorem matchSeq_headlit_fail (a : Char) (l : List Char) (tag : Option Nat) (ps : RPat) :
    ∀ (b t : List Char) (k : Nat), k < b.length → (∀ c ∈ b, a ≠ c) →
      matchSeq ((RItem.lits (a :: l), tag) :: ps) ((b ++ t).drop k) = none := by
  intro b
  induction b with
  | nil =>
    intro t k hk _
    exact absurd hk (by simp)
  | cons c b ih =>
    intro t k hk hb
    cases k with
    | zero =>
      rw [List.cons_append, List.drop_zero]
      exact matchSeq_lits_none _ _ _ _
        (isPre_cons_false _ _ (hb c (List.mem_cons_self c b)))
    | succ k =>
      rw [List.cons_append, List.drop_succ_cons]
      exact ih t k (Nat.lt_of_succ_lt_succ hk)
        (fun x hx => hb x (List.mem_cons_of_mem c hx))

theorem firstSome_none {f : Nat → Option β} (ks : List Nat)
    (h : ∀ k ∈ ks, f k = none) : firstSome f ks = none := by
  induction ks with
  | nil => rfl
  | cons k ks ih =>
    rw [firstSome_cons_none _ (h k (List.mem_cons_self k ks))]
    exact ih (fun x hx => h x (List.mem_cons_of_mem k hx))

/-- A greedy repetition whose positive run lengths all fail settles on the
empty run. -/
theorem firstSome_range_reverse_greedy {f : Nat → Option β} (m : Nat)
    (h : ∀ k, 0 < k → k ≤ m → f k = none) :
    firstSome f ((List.range (m + 1)).reverse) = f 0 := by
  induction m with
  | zero => exact firstSome_single f 0
  | succ m ih =>
    rw [List.range_succ, List.reverse_append, List.reverse_singleton,
      List.singleton_append,
      firstSome_cons_none _ (h (m + 1) (by omega) (by omega))]
    exact ih (fun k hk1 hk2 => h k hk1 (by omega))

/-- A list with a non-whitespace character splits into its whitespace
prefix, the first non-whitespace character, and the remainder. -/
theorem exists_ws_split {b : List Char} (h : ∃ c ∈ b, rustWs c = false) :
    ∃ wsp c0 b', b = wsp ++ (c0 :: b') ∧ (∀ c ∈ wsp, rustWs c = true) ∧
      rustWs c0 = false := by
  induction b with
  | nil =>
    obtain ⟨c, hc, _⟩ := h
    cases hc
  | cons a b ih =>
    cases ha : rustWs a with
    | false => exact ⟨[], a, b, rfl, by simp, ha⟩
    | true =>
      have h' : ∃ c ∈ b, rustWs c = false := by
        obtain ⟨c, hc, hcf⟩ := h
        rcases List.mem_cons.mp hc with rfl | hc'
        · rw [ha] at hcf
          cases hcf
        · exact ⟨c, hc', hcf⟩
      obtain ⟨wsp, c0, b', heq, hw, hc0⟩ := ih h'
      refine ⟨a :: wsp, c0, b', by rw [heq, List.cons_append], ?_, hc0⟩
      intro c hc
      rcases List.mem_cons.mp hc with rfl | hc'
      · exact ha
      · exact hw c hc'

/-- A single-line block body: no newline and at least one non-whitespace
character (so the optional whitespace after the opening tag cannot swallow
it and the capture is the body verbatim). -/
def lineBody (b : List Char) : Prop := '\n' ∉ b ∧ ∃ c ∈ b, rustWs c = false

instance (b : List Char) : Decidable (lineBody b) :=
  inferInstanceAs (Decidable (_ ∧ _))

/-- After the newline of the opening line: the optional whitespace run
cannot reach past the newline (the body has a non-whitespace character),
the body is captured whole, and the closing fence ends the match. -/
theorem matchSeq_tail_block (g : Nat) (b rest : List Char) (hb : lineBody b) :
    matchSeq [(RItem.starG rustWs, none), (RItem.lits ['\n'], none),
      (RItem.starL nonNl, some g), (RItem.lits ['\n'], none),
      (RItem.starG rustWs, none), (RItem.lits (chars "```"), none)]
      ('\n' :: (b ++ ('\n' :: (chars "```" ++ rest)))) =
      some ([(g, b)], rest) := by
  obtain ⟨wsp, c0, b', heq, hws, hc0⟩ := exists_ws_split hb.2
  have hlen : wsp.length < b.length := by
    rw [heq]
    simp
  rw [matchSeq_starG]
  have hm : maxRun rustWs ('\n' :: (b ++ ('\n' :: (chars "```" ++ rest)))) =
      wsp.length + 1 := by
    rw [maxRun_cons_pos _ (by decide),
      show b ++ ('\n' :: (chars "```" ++ rest)) =
        wsp ++ (c0 :: (b' ++ ('\n' :: (chars "```" ++ rest)))) from by
        rw [heq, List.append_assoc, List.cons_append],
      maxRun_all_stop wsp _ hws hc0]
  have hfail : ∀ k, 0 < k → k ≤ wsp.length + 1 →
      (matchSeq [(RItem.lits ['\n'], none), (RItem.starL nonNl, some g),
        (RItem.lits ['\n'], none), (RItem.starG rustWs, none),
        (RItem.lits (chars "```"), none)]
        (('\n' :: (b ++ ('\n' :: (chars "```" ++ rest)))).drop k)).map
        (addCap none (('\n' :: (b ++ ('\n' :: (chars "```" ++ rest)))).take k)) =
      none := by
    intro k hk1 hk2
    obtain ⟨k', rfl⟩ : ∃ k', k = k' + 1 := ⟨k - 1, by omega⟩
    rw [List.drop_succ_cons,
      matchSeq_nl_fail none _ b _ k' (by omega) hb.1]
    rfl
  rw [hm, firstSome_range_reverse_greedy (wsp.length + 1) hfail]
  simp only [List.drop_zero, List.take_zero, map_addCap_none]
  rw [matchSeq_lits_cons _ _ _ _ (by simp [isPre])]
  simp only [List.length_singleton, List.drop_succ_cons, List.drop_zero, map_addCap_none]
  exact matchSeq_body_tail g b rest hb.1

/-- A whole cron or memory shaped block matches at its start, captures the
body verbatim in group g and leaves exactly the trailing text. -/
theorem matchSeq_block (lit : List Char) (g : Nat) (b rest : List Char)
    (hb : lineBody b) :
    matchSeq [(RItem.lits lit, none), (RItem.starG rustWs, none),
      (RItem.lits ['\n'], none), (RItem.starL nonNl, some g),
      (RItem.lits ['\n'], none), (RItem.starG rustWs, none),
      (RItem.lits (chars "```"), none)]
      (blockText lit b rest) =
      some ([(g, b)], rest) := by
  rw [blockText, matchSeq_lits_cons _ _ _ _ (isPre_append_self _ _), List.drop_left,
    map_addCap_none]
  exact matchSeq_tail_block g b rest hb

/-- A whole save block: the filename run is taken greedily up to the end of
the opening line, then the body as in the other block shapes. -/
theorem matchSeq_save_block (f0 : Char) (f' : List Char) (b rest : List Char)
    (hf : ∀ c ∈ f0 :: f', rustWs c = false) (hb : lineBody b) :
    matchSeq savePat
      (blockText (chars "```save:" ++ (f0 :: f')) b rest) =
      some ([(1, f0 :: f'), (2, b)], rest) := by
  have hshape : blockText (chars "```save:" ++ (f0 :: f')) b rest =
      chars "```save:" ++ ((f0 :: f') ++
        ('\n' :: (b ++ ('\n' :: (chars "```" ++ rest))))) := by
    rw [blockText, List.append_assoc]
  rw [hshape]
  show matchSeq ((RItem.lits (chars "```save:"), none) :: (RItem.plusG nonWs, some 1) ::
    [(RItem.starG rustWs, none), (RItem.lits ['\n'], none), (RItem.starL nonNl, some 2),
     (RItem.lits ['\n'], none), (RItem.starG rustWs, none),
     (RItem.lits (chars "```"), none)]) _ = _
  rw [matchSeq_lits_cons _ _ _ _ (isPre_append_self _ _), List.drop_left]
  rw [matchSeq_plusG]
  have hm : maxRun nonWs ((f0 :: f') ++
      ('\n' :: (b ++ ('\n' :: (chars "```" ++ rest))))) = (f0 :: f').length := by
    apply maxRun_all_stop
    · intro c hc
      simp [nonWs, hf c hc]
    · simp [nonWs, rustWs]
  rw [hm, show (f0 :: f').length = f'.length + 1 from rfl, range_map_succ_reverse,
    show f'.length + 1 = (f0 :: f').length from rfl]
  rw [firstSome_cons_some]
  · rw [map_addCap_none]
  · rw [List.drop_left, List.take_left,
      matchSeq_tail_block 2 b rest hb]
    rfl

/-- A position where the pattern matches is where the leftmost scan stops. -/
theorem findSplit_of_matchSeq (pat : RPat) (s : List Char) (caps : Caps) (rest : List Char)
    (h : matchSeq pat s = some (caps, rest)) :
    findSplit pat s = some ([], caps, rest) := by
  cases s with
  | nil => simp [findSplit, h]
  | cons c cs => simp [findSplit, h]

/-! ## Prose safety

A prose piece is safe for a pattern when no position inside it can begin
the literal that heads the pattern, no matter what text follows: at every
position, neither is the literal a prefix of the remaining prose nor is the
remaining prose a prefix of the literal.  This is decidable, closed under
concatenation, and lets a fenced code block of any other language sit in
the prose. -/

def proseFor (lit p : List Char) : Prop :=
  ∀ i, i < p.length → isPre lit (p.drop i) = false ∧ isPre (p.drop i) lit = false

instance (lit p : List Char) : Decidable (proseFor lit p) :=
  inferInstanceAs (Decidable (∀ i, i < p.length →
    isPre lit (p.drop i) = false ∧ isPre (p.drop i) lit = false))

theorem proseFor_cons {lit : List Char} {c : Char} {r : List Char} :
    proseFor lit (c :: r) ↔
      (isPre lit (c :: r) = false ∧ isPre (c :: r) lit = false) ∧ proseFor lit r := by
  constructor
  · intro h
    refine ⟨h 0 (by simp), fun i hi => ?_⟩
    have := h (i + 1) (by simpa using hi)
    simpa using this
  · rintro ⟨h0, hr⟩ i hi
    cases i with
    | zero => simpa using h0
    | succ i =>
      rw [List.drop_succ_cons]
      exact hr i (by simpa using hi)

theorem isPre_append_cases : ∀ (a b X : List Char),
    isPre a (b ++ X) = true → isPre a b = true ∨ isPre b a = true := by
  intro a
  induction a with
  | nil =>
    intro b X _
    left
    rfl
  | cons x a ih =>
    intro b X h
    cases b with
    | nil =>
      right
      rfl
    | cons y b' =>
      rw [List.cons_append] at h
      simp only [isPre, Bool.and_eq_true, decide_eq_true_eq] at h
      obtain ⟨rfl, h2⟩ := h
      rcases ih b' X h2 with h3 | h3
      · left
        simp [isPre, h3]
      · right
        simp [isPre, h3]

theorem isPre_append_left_true : ∀ (a b c : List Char),
    isPre (a ++ b) c = true → isPre a c = true := by
  intro a
  induction a with
  | nil =>
    intro b c _
    rfl
  | cons x a ih =>
    intro b c h
    cases c with
    | nil =>
      rw [List.cons_append] at h
      exact absurd h (by simp [isPre])
    | cons y c' =>
      rw [List.cons_append] at h
      simp only [isPre, Bool.and_eq_true, decide_eq_true_eq] at h ⊢
      exact ⟨h.1, ih b c' h.2⟩

theorem proseFor_append {lit p q : List Char}
    (hp : proseFor lit p) (hq : proseFor lit q) : proseFor lit (p ++ q) := by
  induction p with
  | nil => simpa using hq
  | cons c p ih =>
    obtain ⟨⟨h1, h2⟩, hp'⟩ := proseFor_cons.mp hp
    rw [List.cons_append, proseFor_cons]
    refine ⟨⟨?_, ?_⟩, ih hp'⟩
    · cases hx : isPre lit (c :: (p ++ q))
      · rfl
      · rw [← List.cons_append] at hx
        rcases isPre_append_cases _ _ _ hx with h3 | h3
        · rw [h1] at h3
          cases h3
        · rw [h2] at h3
          cases h3
    · cases hx : isPre (c :: (p ++ q)) lit
      · rfl
      · rw [← List.cons_append] at hx
        rw [isPre_append_left_true _ _ _ hx] at h2
        cases h2

theorem proseFor_of_append_left {lit q p : List Char}
    (h : proseFor lit (q ++ p)) : proseFor lit p := by
  induction q with
  | nil => simpa using h
  | cons c q ih =>
    rw [List.cons_append] at h
    exact ih (proseFor_cons.mp h).2

theorem proseFor_btickfree {l p : List Char}
    (h : ∀ c ∈ p, c ≠ btick) : proseFor (btick :: l) p := by
  intro i hi
  have hne : p.drop i ≠ [] := by
    intro hx
    have := List.length_drop i p
    rw [hx] at this
    simp at this
    omega
  obtain ⟨c, cs, hcons⟩ := List.exists_cons_of_ne_nil hne
  have hc : c ∈ p := List.mem_of_mem_drop (by rw [hcons]; exact List.mem_cons_self c cs)
  rw [hcons]
  exact ⟨isPre_cons_false _ _ (Ne.symm (h c hc)), isPre_cons_false _ _ (h c hc)⟩

/-- The leftmost scan passes over a safe prose prefix untouched. -/
theorem findSplit_skip_proseFor (lc : Char) (l : List Char) (tag : Option Nat) (ps : RPat) :
    ∀ (p s : List Char), proseFor (lc :: l) p →
      findSplit ((RItem.lits (lc :: l), tag) :: ps) (p ++ s) =
        (findSplit ((RItem.lits (lc :: l), tag) :: ps) s).map
          (fun r => (p ++ r.1, r.2.1, r.2.2)) := by
  intro p
  induction p with
  | nil =>
    intro s _
    rw [List.nil_append]
    cases h : findSplit ((RItem.lits (lc :: l), tag) :: ps) s with
    | none => rfl
    | some r =>
      obtain ⟨pre, caps, rest⟩ := r
      simp
  | cons c p ih =>
    intro s hp
    obtain ⟨⟨h1, h2⟩, hp'⟩ := proseFor_cons.mp hp
    have hfail : isPre (lc :: l) (c :: (p ++ s)) = false := by
      cases hx : isPre (lc :: l) (c :: (p ++ s))
      · rfl
      · rw [← List.cons_append] at hx
        rcases isPre_append_cases _ _ _ hx with h3 | h3
        · rw [h1] at h3
          cases h3
        · rw [h2] at h3
          cases h3
    rw [List.cons_append]
    rw [show findSplit ((RItem.lits (lc :: l), tag) :: ps) (c :: (p ++ s)) =
      (findSplit ((RItem.lits (lc :: l), tag) :: ps) (p ++ s)).map
        (fun r => (c :: r.1, r.2.1, r.2.2)) from by
      simp [findSplit, matchSeq_lits_none _ _ _ _ hfail]]
    rw [ih s hp']
    cases hs : findSplit ((RItem.lits (lc :: l), tag) :: ps) s with
    | none => rfl
    | some r =>
      obtain ⟨pre, caps, rest⟩ := r
      simp

/-- A wholly safe text has no match at all. -/
theorem findSplit_none_proseFor (lc : Char) (l : List Char) (tag : Option Nat) (ps : RPat) :
    ∀ (s : List Char), proseFor (lc :: l) s →
      findSplit ((RItem.lits (lc :: l), tag) :: ps) s = none := by
  intro s
  induction s with
  | nil =>
    intro _
    simp [findSplit, matchSeq_lits_none _ _ _ _ (show isPre (lc :: l) [] = false from rfl)]
  | cons c s ih =>
    intro h
    obtain ⟨⟨h1, _⟩, h'⟩ := proseFor_cons.mp h
    simp [findSplit, matchSeq_lits_none _ _ _ _ h1, ih h']

theorem findAllAux_step (pat : RPat) (fuel : Nat) (s pre rest : List Char) (caps : Caps)
    (h : findSplit pat s = some (pre, caps, rest)) :
    findAllAux pat (fuel + 1) s = caps :: findAllAux pat fuel rest := by
  simp [findAllAux, h]

theorem findAllAux_nil (pat : RPat) (fuel : Nat) (s : List Char)
    (h : findSplit pat s = none) :
    findAllAux pat fuel s = [] := by
  cases fuel with
  | zero => rfl
  | succ fuel => simp [findAllAux, h]

theorem replaceAllAux_step (pat : RPat) (fuel : Nat) (s pre rest : List Char) (caps : Caps)
    (h : findSplit pat s = some (pre, caps, rest)) :
    replaceAllAux pat (fuel + 1) s = pre ++ replaceAllAux pat fuel rest := by
  simp [replaceAllAux, h]

theorem replaceAllAux_id (pat : RPat) (fuel : Nat) (s : List Char)
    (h : findSplit pat s = none) :
    replaceAllAux pat fuel s = s := by
  cases fuel with
  | zero => rfl
  | succ fuel => simp [replaceAllAux, h]

theorem replaceAll_id (pat : RPat) (s : List Char) (h : findSplit pat s = none) :
    replaceAll pat s = s := by
  rw [replaceAll]
  exact replaceAllAux_id _ _ _ h

theorem cronPat_eq :
    cronPat = (RItem.lits (btick :: chars "``cron"), none) ::
      [(RItem.starG rustWs, none), (RItem.lits ['\n'], none), (RItem.starL nonNl, some 1),
       (RItem.lits ['\n'], none), (RItem.starG rustWs, none),
       (RItem.lits (chars "```"), none)] := by
  rw [cronPat, show btick :: chars "``cron" = chars "```cron" from by decide]

theorem memPat_eq :
    memPat = (RItem.lits (btick :: chars "``memory"), none) ::
      [(RItem.starG rustWs, none), (RItem.lits ['\n'], none), (RItem.starL nonNl, some 1),
       (RItem.lits ['\n'], none), (RItem.starG rustWs, none),
       (RItem.lits (chars "```"), none)] := by
  rw [memPat, show btick :: chars "``memory" = chars "```memory" from by decide]

theorem savePat_eq :
    savePat = (RItem.lits (btick :: chars "``save:"), none) ::
      [(RItem.plusG nonWs, some 1), (RItem.starG rustWs, none), (RItem.lits ['\n'], none),
       (RItem.starL nonNl, some 2), (RItem.lits ['\n'], none), (RItem.starG rustWs, none),
       (RItem.lits (chars "```"), none)] := by
  rw [savePat, show btick :: chars "``save:" = chars "```save:" from by decide]

theorem blockText_length (lit b rest : List Char) :
    (blockText lit b rest).length = lit.length + b.length + rest.length + 5 := by
  rw [blockText]
  simp only [List.length_append, List.length_cons,
    show (chars "```").length = 3 from rfl]
  omega

/-! ## Responses assembled from prose and blocks of the three kinds -/

inductive BlockSeg where
  | cronB : List Char → BlockSeg
  | saveB : List Char → List Char → BlockSeg
  | memB : List Char → BlockSeg

/-- The opening fence line of a block. -/
def segOpen : BlockSeg → List Char
  | BlockSeg.cronB _ => chars "```cron"
  | BlockSeg.saveB f _ => chars "```save:" ++ f
  | BlockSeg.memB _ => chars "```memory"

def segBody : BlockSeg → List Char
  | BlockSeg.cronB b => b
  | BlockSeg.saveB _ b => b
  | BlockSeg.memB b => b

abbrev PSeg := List Char × BlockSeg

/-- A response text: each segment contributes its prose and, when kept,
its block; the tail prose closes the text.  The keep switch lets the same
segment list also describe the text after blocks of some kinds have been
removed. -/
def mtext (keep : BlockSeg → Bool) : List PSeg → List Char → List Char
  | [], tail => tail
  | (p, sg) :: rest, tail =>
    if keep sg then p ++ blockText (segOpen sg) (segBody sg) (mtext keep rest tail)
    else p ++ mtext keep rest tail

def keepAll : BlockSeg → Bool := fun _ => true

/-- The full text of one block, closing fence included. -/
def blockFull (openLine body : List Char) : List Char :=
  openLine ++ ('\n' :: (body ++ ('\n' :: chars "```")))

theorem blockText_eq_full (o b X : List Char) :
    blockText o b X = blockFull o b ++ X := by
  rw [blockText, blockFull]
  simp [List.append_assoc]

theorem blockText_chunk (o b X : List Char) :
    blockText o b X = (o ++ ('\n' :: (b ++ ['\n']))) ++ (chars "```" ++ X) := by
  rw [blockText]
  simp [List.append_assoc]

/-- The first kept block of the kind the pattern matches: the text before
it (prose and full passed-over blocks), its capture groups, and the
segments after it. -/
def firstMatch (keep : BlockSeg → Bool) (kindOf : BlockSeg → Option Caps) :
    List PSeg → Option (List Char × Caps × List PSeg)
  | [] => none
  | (p, sg) :: rest =>
    if keep sg then
      match kindOf sg with
      | some caps => some (p, caps, rest)
      | none =>
        (firstMatch keep kindOf rest).map
          (fun r => (p ++ (blockFull (segOpen sg) (segBody sg) ++ r.1), r.2.1, r.2.2))
    else
      (firstMatch keep kindOf rest).map (fun r => (p ++ r.1, r.2.1, r.2.2))

def fpOk (fp : List Char) : Prop := fp = [] ∨ fp = chars "```"

theorem proseFor_fp {lc : Char} {l fp q : List Char} (hfp : fpOk fp)
    (hq : proseFor (lc :: l) (chars "```" ++ q)) : proseFor (lc :: l) (fp ++ q) := by
  rcases hfp with rfl | rfl
  · rw [List.nil_append]
    exact proseFor_of_append_left hq
  · exact hq

theorem blockFull_eq_chunk (o b : List Char) :
    (o ++ ('\n' :: (b ++ ['\n']))) ++ chars "```" = blockFull o b := by
  rw [blockFull]
  simp [List.append_assoc]

/-- Where the leftmost scan of a pattern stops on an assembled response:
prose and blocks of other kinds are passed over, and the first kept block
of the matching kind is found with its captures. -/
theorem findSplit_mtext (lc : Char) (l : List Char) (tag : Option Nat) (ps : RPat)
    (keep : BlockSeg → Bool) (kindOf : BlockSeg → Option Caps) :
    ∀ (segs : List PSeg) (tail : List Char),
      (∀ s ∈ segs, proseFor (lc :: l) (chars "```" ++ s.1)) →
      (∀ s ∈ segs, keep s.2 = true → ∀ caps, kindOf s.2 = some caps → ∀ X,
        matchSeq ((RItem.lits (lc :: l), tag) :: ps)
          (blockText (segOpen s.2) (segBody s.2) X) = some (caps, X)) →
      (∀ s ∈ segs, keep s.2 = true → kindOf s.2 = none →
        proseFor (lc :: l) (segOpen s.2 ++ ('\n' :: (segBody s.2 ++ ['\n'])))) →
      proseFor (lc :: l) (chars "```" ++ tail) →
      ∀ fp, fpOk fp →
      findSplit ((RItem.lits (lc :: l), tag) :: ps) (fp ++ mtext keep segs tail) =
        (firstMatch keep kindOf segs).map
          (fun r => (fp ++ r.1, r.2.1, mtext keep r.2.2 tail)) := by
  intro segs
  induction segs with
  | nil =>
    intro tail _ _ _ ht fp hfp
    rw [mtext, firstMatch, findSplit_none_proseFor lc l tag ps _ (proseFor_fp hfp ht)]
    rfl
  | cons s segs ih =>
    obtain ⟨p, sg⟩ := s
    intro tail hP hM hS ht fp hfp
    have hPh := hP (p, sg) (List.mem_cons_self _ _)
    have hP' := fun x hx => hP x (List.mem_cons_of_mem _ hx)
    have hM' := fun x hx => hM x (List.mem_cons_of_mem _ hx)
    have hS' := fun x hx => hS x (List.mem_cons_of_mem _ hx)
    cases hkeep : keep sg with
    | false =>
      have htext : mtext keep ((p, sg) :: segs) tail = p ++ mtext keep segs tail := by
        rw [mtext, hkeep]
        simp
      rw [htext, ← List.append_assoc,
        findSplit_skip_proseFor lc l tag ps (fp ++ p) _ (proseFor_fp hfp hPh)]
      have h2 := ih tail hP' hM' hS' ht [] (Or.inl rfl)
      rw [List.nil_append] at h2
      rw [h2, firstMatch, hkeep]
      cases hr : firstMatch keep kindOf segs with
      | none => rfl
      | some r =>
        obtain ⟨pre, caps, rest⟩ := r
        simp [List.append_assoc]
    | true =>
      have htext : mtext keep ((p, sg) :: segs) tail =
          p ++ blockText (segOpen sg) (segBody sg) (mtext keep segs tail) := by
        rw [mtext, hkeep]
        simp
      cases hkind : kindOf sg with
      | some caps =>
        rw [htext, ← List.append_assoc,
          findSplit_skip_proseFor lc l tag ps (fp ++ p) _ (proseFor_fp hfp hPh),
          findSplit_of_matchSeq _ _ _ _
            (hM (p, sg) (List.mem_cons_self _ _) hkeep caps hkind (mtext keep segs tail))]
        rw [firstMatch, hkeep, hkind]
        simp
      | none =>
        have hsplit : fp ++ mtext keep ((p, sg) :: segs) tail =
            ((fp ++ p) ++ (segOpen sg ++ ('\n' :: (segBody sg ++ ['\n'])))) ++
              (chars "```" ++ mtext keep segs tail) := by
          rw [htext, blockText_chunk]
          simp [List.append_assoc]
        have hchunk : proseFor (lc :: l)
            ((fp ++ p) ++ (segOpen sg ++ ('\n' :: (segBody sg ++ ['\n'])))) :=
          proseFor_append (proseFor_fp hfp hPh)
            (hS (p, sg) (List.mem_cons_self _ _) hkeep hkind)
        rw [hsplit, findSplit_skip_proseFor lc l tag ps _ _ hchunk,
          ih tail hP' hM' hS' ht (chars "```") (Or.inr rfl)]
        rw [firstMatch, hkeep, hkind]
        cases hr : firstMatch keep kindOf segs with
        | none => rfl
        | some r =>
          obtain ⟨pre, caps, rest⟩ := r
          simp only [Option.map_some]
          rw [← blockFull_eq_chunk (segOpen sg) (segBody sg)]
          simp [List.append_assoc]

theorem firstMatch_length {keep : BlockSeg → Bool} {kindOf : BlockSeg → Option Caps} :
    ∀ {segs : List PSeg} {r}, firstMatch keep kindOf segs = some r →
      r.2.2.length < segs.length := by
  intro segs
  induction segs with
  | nil => intro r h; cases h
  | cons s segs ih =>
    obtain ⟨p, sg⟩ := s
    intro r h
    by_cases hkeep : keep sg = true
    · cases hkind : kindOf sg with
      | some caps =>
        rw [firstMatch, if_pos hkeep, hkind] at h
        cases h
        simp
      | none =>
        rw [firstMatch, if_pos hkeep, hkind] at h
        simp only [Option.map_eq_some'] at h
        obtain ⟨r2, hr2, rfl⟩ := h
        have := ih hr2
        simp only [List.length_cons]
        omega
    · rw [firstMatch, if_neg hkeep] at h
      simp only [Option.map_eq_some'] at h
      obtain ⟨r2, hr2, rfl⟩ := h
      have := ih hr2
      simp only [List.length_cons]
      omega

theorem firstMatch_mem {keep : BlockSeg → Bool} {kindOf : BlockSeg → Option Caps} :
    ∀ {segs : List PSeg} {r}, firstMatch keep kindOf segs = some r →
      ∀ x ∈ r.2.2, x ∈ segs := by
  intro segs
  induction segs with
  | nil => intro r h; cases h
  | cons s segs ih =>
    obtain ⟨p, sg⟩ := s
    intro r h x hx
    by_cases hkeep : keep sg = true
    · cases hkind : kindOf sg with
      | some caps =>
        rw [firstMatch, if_pos hkeep, hkind] at h
        cases h
        exact List.mem_cons_of_mem _ hx
      | none =>
        rw [firstMatch, if_pos hkeep, hkind] at h
        simp only [Option.map_eq_some'] at h
        obtain ⟨r2, hr2, rfl⟩ := h
        exact List.mem_cons_of_mem _ (ih hr2 x hx)
    · rw [firstMatch, if_neg hkeep] at h
      simp only [Option.map_eq_some'] at h
      obtain ⟨r2, hr2, rfl⟩ := h
      exact List.mem_cons_of_mem _ (ih hr2 x hx)

theorem firstMatch_none_filterMap {keep : BlockSeg → Bool} {kindOf : BlockSeg → Option Caps} :
    ∀ {segs : List PSeg}, firstMatch keep kindOf segs = none →
      segs.filterMap (fun s => if keep s.2 then kindOf s.2 else none) = [] := by
  intro segs
  induction segs with
  | nil => intro _; rfl
  | cons s segs ih =>
    obtain ⟨p, sg⟩ := s
    intro h
    by_cases hkeep : keep sg = true
    · cases hkind : kindOf sg with
      | some caps =>
        rw [firstMatch, if_pos hkeep, hkind] at h
        cases h
      | none =>
        rw [firstMatch, if_pos hkeep, hkind] at h
        simp only [Option.map_eq_none'] at h
        simp only [List.filterMap_cons, if_pos hkeep, hkind]
        exact ih h
    · rw [firstMatch, if_neg hkeep] at h
      simp only [Option.map_eq_none'] at h
      simp only [List.filterMap_cons, if_neg hkeep]
      exact ih h

theorem firstMatch_some_filterMap {keep : BlockSeg → Bool} {kindOf : BlockSeg → Option Caps} :
    ∀ {segs : List PSeg} {r}, firstMatch keep kindOf segs = some r →
      segs.filterMap (fun s => if keep s.2 then kindOf s.2 else none) =
        r.2.1 :: r.2.2.filterMap (fun s => if keep s.2 then kindOf s.2 else none) := by
  intro segs
  induction segs with
  | nil => intro r h; cases h
  | cons s segs ih =>
    obtain ⟨p, sg⟩ := s
    intro r h
    by_cases hkeep : keep sg = true
    · cases hkind : kindOf sg with
      | some caps =>
        rw [firstMatch, if_pos hkeep, hkind] at h
        cases h
        simp only [List.filterMap_cons, if_pos hkeep, hkind]
      | none =>
        rw [firstMatch, if_pos hkeep, hkind] at h
        simp only [Option.map_eq_some'] at h
        obtain ⟨r2, hr2, rfl⟩ := h
        simp only [List.filterMap_cons, if_pos hkeep, hkind]
        exact ih hr2
    · rw [firstMatch, if_neg hkeep] at h
      simp only [Option.map_eq_some'] at h
      obtain ⟨r2, hr2, rfl⟩ := h
      simp only [List.filterMap_cons, if_neg hkeep]
      exact ih hr2

theorem firstMatch_mtext_length {keep : BlockSeg → Bool} {kindOf : BlockSeg → Option Caps} :
    ∀ {segs : List PSeg} {r}, firstMatch keep kindOf segs = some r →
      ∀ tail, (mtext keep r.2.2 tail).length < (mtext keep segs tail).length := by
  intro segs
  induction segs with
  | nil => intro r h; cases h
  | cons s segs ih =>
    obtain ⟨p, sg⟩ := s
    intro r h tail
    by_cases hkeep : keep sg = true
    · cases hkind : kindOf sg with
      | some caps =>
        rw [firstMatch, if_pos hkeep, hkind] at h
        cases h
        rw [mtext, if_pos hkeep]
        simp only [List.length_append, blockText_length]
        omega
      | none =>
        rw [firstMatch, if_pos hkeep, hkind] at h
        simp only [Option.map_eq_some'] at h
        obtain ⟨r2, hr2, rfl⟩ := h
        have := ih hr2 tail
        rw [mtext, if_pos hkeep]
        simp only [List.length_append, blockText_length]
        omega
    · rw [firstMatch, if_neg hkeep] at h
      simp only [Option.map_eq_some'] at h
      obtain ⟨r2, hr2, rfl⟩ := h
      have := ih hr2 tail
      rw [mtext, if_neg hkeep]
      simp only [List.length_append]
      omega

theorem firstMatch_none_mtext {keep : BlockSeg → Bool} {kindOf : BlockSeg → Option Caps} :
    ∀ {segs : List PSeg}, firstMatch keep kindOf segs = none → ∀ tail,
      mtext (fun sg => keep sg && (kindOf sg).isNone) segs tail = mtext keep segs tail := by
  intro segs
  induction segs with
  | nil => intro _ tail; rfl
  | cons s segs ih =>
    obtain ⟨p, sg⟩ := s
    intro h tail
    by_cases hkeep : keep sg = true
    · cases hkind : kindOf sg with
      | some caps =>
        rw [firstMatch, if_pos hkeep, hkind] at h
        cases h
      | none =>
        rw [firstMatch, if_pos hkeep, hkind] at h
        simp only [Option.map_eq_none'] at h
        rw [mtext, mtext, if_pos hkeep, if_pos (show (keep sg && (kindOf sg).isNone) = true by
          rw [hkeep, hkind]; rfl), ih h tail]
    · rw [firstMatch, if_neg hkeep] at h
      simp only [Option.map_eq_none'] at h
      rw [mtext, mtext, if_neg hkeep,
        if_neg (show ¬((keep sg && (kindOf sg).isNone) = true) by
          rw [Bool.and_eq_true]; intro hx; exact hkeep hx.1), ih h tail]

theorem firstMatch_some_mtext {keep : BlockSeg → Bool} {kindOf : BlockSeg → Option Caps} :
    ∀ {segs : List PSeg} {r}, firstMatch keep kindOf segs = some r → ∀ tail,
      mtext (fun sg => keep sg && (kindOf sg).isNone) segs tail =
        r.1 ++ mtext (fun sg => keep sg && (kindOf sg).isNone) r.2.2 tail := by
  intro segs
  induction segs with
  | nil => intro r h; cases h
  | cons s segs ih =>
    obtain ⟨p, sg⟩ := s
    intro r h tail
    by_cases hkeep : keep sg = true
    · cases hkind : kindOf sg with
      | some caps =>
        rw [firstMatch, if_pos hkeep, hkind] at h
        cases h
        rw [mtext, if_neg (show ¬((keep sg && (kindOf sg).isNone) = true) by
          rw [hkeep, hkind]; simp)]
      | none =>
        rw [firstMatch, if_pos hkeep, hkind] at h
        simp only [Option.map_eq_some'] at h
        obtain ⟨r2, hr2, rfl⟩ := h
        rw [mtext, if_pos (show (keep sg && (kindOf sg).isNone) = true by
          rw [hkeep, hkind]; rfl), ih hr2 tail, blockText_eq_full]
        simp [List.append_assoc]
    · rw [firstMatch, if_neg hkeep] at h
      simp only [Option.map_eq_some'] at h
      obtain ⟨r2, hr2, rfl⟩ := h
      rw [mtext, if_neg (show ¬((keep sg && (kindOf sg).isNone) = true) by
        rw [Bool.and_eq_true]; intro hx; exact hkeep hx.1), ih hr2 tail]
      simp [List.append_assoc]

/-- Repeated scanning over an assembled response collects exactly the
captures of the kept blocks of the kind the pattern matches, in order. -/
theorem findAllAux_mtext (lc : Char) (l : List Char) (tag : Option Nat) (ps : RPat)
    (keep : BlockSeg → Bool) (kindOf : BlockSeg → Option Caps) :
    ∀ (n : Nat) (segs : List PSeg) (tail : List Char), segs.length ≤ n →
      (∀ s ∈ segs, proseFor (lc :: l) (chars "```" ++ s.1)) →
      (∀ s ∈ segs, keep s.2 = true → ∀ caps, kindOf s.2 = some caps → ∀ X,
        matchSeq ((RItem.lits (lc :: l), tag) :: ps)
          (blockText (segOpen s.2) (segBody s.2) X) = some (caps, X)) →
      (∀ s ∈ segs, keep s.2 = true → kindOf s.2 = none →
        proseFor (lc :: l) (segOpen s.2 ++ ('\n' :: (segBody s.2 ++ ['\n'])))) →
      proseFor (lc :: l) (chars "```" ++ tail) →
      ∀ fuel, (mtext keep segs tail).length < fuel →
      findAllAux ((RItem.lits (lc :: l), tag) :: ps) fuel (mtext keep segs tail) =
        segs.filterMap (fun s => if keep s.2 then kindOf s.2 else none) := by
  intro n
  induction n with
  | zero =>
    intro segs tail hlen _ _ _ ht fuel _
    have hnil : segs = [] := List.length_eq_zero.mp (Nat.le_zero.mp hlen)
    subst hnil
    exact findAllAux_nil _ _ _
      (findSplit_none_proseFor lc l tag ps tail (proseFor_of_append_left ht))
  | succ n ih =>
    intro segs tail hlen hP hM hS ht fuel hfuel
    have hsplit := findSplit_mtext lc l tag ps keep kindOf segs tail hP hM hS ht
      [] (Or.inl rfl)
    rw [List.nil_append] at hsplit
    cases hr : firstMatch keep kindOf segs with
    | none =>
      rw [hr] at hsplit
      rw [findAllAux_nil _ _ _ hsplit, firstMatch_none_filterMap hr]
    | some r =>
      rw [hr] at hsplit
      simp only [Option.map_some'] at hsplit
      cases fuel with
      | zero => omega
      | succ f =>
        have hmem := firstMatch_mem hr
        rw [findAllAux_step _ f _ _ _ _ hsplit,
          ih r.2.2 tail (by have := firstMatch_length hr; omega)
            (fun x hx => hP x (hmem x hx))
            (fun x hx => hM x (hmem x hx))
            (fun x hx => hS x (hmem x hx)) ht f
            (by have := firstMatch_mtext_length hr tail; omega),
          firstMatch_some_filterMap hr]

/-- Repeated removal over an assembled response deletes exactly the kept
blocks of the kind the pattern matches and keeps everything else. -/
theorem replaceAllAux_mtext (lc : Char) (l : List Char) (tag : Option Nat) (ps : RPat)
    (keep : BlockSeg → Bool) (kindOf : BlockSeg → Option Caps) :
    ∀ (n : Nat) (segs : List PSeg) (tail : List Char), segs.length ≤ n →
      (∀ s ∈ segs, proseFor (lc :: l) (chars "```" ++ s.1)) →
      (∀ s ∈ segs, keep s.2 = true → ∀ caps, kindOf s.2 = some caps → ∀ X,
        matchSeq ((RItem.lits (lc :: l), tag) :: ps)
          (blockText (segOpen s.2) (segBody s.2) X) = some (caps, X)) →
      (∀ s ∈ segs, keep s.2 = true → kindOf s.2 = none →
        proseFor (lc :: l) (segOpen s.2 ++ ('\n' :: (segBody s.2 ++ ['\n'])))) →
      proseFor (lc :: l) (chars "```" ++ tail) →
      ∀ fuel, (mtext keep segs tail).length < fuel →
      replaceAllAux ((RItem.lits (lc :: l), tag) :: ps) fuel (mtext keep segs tail) =
        mtext (fun sg => keep sg && (kindOf sg).isNone) segs tail := by
  intro n
  induction n with
  | zero =>
    intro segs tail hlen _ _ _ ht fuel _
    have hnil : segs = [] := List.length_eq_zero.mp (Nat.le_zero.mp hlen)
    subst hnil
    exact replaceAllAux_id _ _ _
      (findSplit_none_proseFor lc l tag ps tail (proseFor_of_append_left ht))
  | succ n ih =>
    intro segs tail hlen hP hM hS ht fuel hfuel
    have hsplit := findSplit_mtext lc l tag ps keep kindOf segs tail hP hM hS ht
      [] (Or.inl rfl)
    rw [List.nil_append] at hsplit
    cases hr : firstMatch keep kindOf segs with
    | none =>
      rw [hr] at hsplit
      rw [replaceAllAux_id _ _ _ hsplit, firstMatch_none_mtext hr]
    | some r =>
      rw [hr] at hsplit
      simp only [Option.map_some'] at hsplit
      cases fuel with
      | zero => omega
      | succ f =>
        have hmem := firstMatch_mem hr
        rw [replaceAllAux_step _ f _ _ _ _ hsplit,
          ih r.2.2 tail (by have := firstMatch_length hr; omega)
            (fun x hx => hP x (hmem x hx))
            (fun x hx => hM x (hmem x hx))
            (fun x hx => hS x (hmem x hx)) ht f
            (by have := firstMatch_mtext_length hr tail; omega),
          firstMatch_some_mtext hr tail, List.nil_append]

/-! ## The three patterns over assembled responses -/

theorem cronLit_eq : chars "```cron" = btick :: chars "``cron" := by decide

theorem saveLit_eq : chars "```save:" = btick :: chars "``save:" := by decide

theorem memLit_eq : chars "```memory" = btick :: chars "``memory" := by decide

/-- Tail of the cron and memory patterns after the opening literal. -/
def cronPs : RPat :=
  [(RItem.starG rustWs, none), (RItem.lits ['\n'], none), (RItem.starL nonNl, some 1),
   (RItem.lits ['\n'], none), (RItem.starG rustWs, none),
   (RItem.lits (chars "```"), none)]

/-- Tail of the save pattern after the opening literal. -/
def savePs : RPat :=
  [(RItem.plusG nonWs, some 1), (RItem.starG rustWs, none), (RItem.lits ['\n'], none),
   (RItem.starL nonNl, some 2), (RItem.lits ['\n'], none), (RItem.starG rustWs, none),
   (RItem.lits (chars "```"), none)]

theorem cronPat_ps : cronPat = (RItem.lits (btick :: chars "``cron"), none) :: cronPs := by
  rw [cronPat_eq, cronPs]

theorem memPat_ps : memPat = (RItem.lits (btick :: chars "``memory"), none) :: cronPs := by
  rw [memPat_eq, cronPs]

theorem savePat_ps : savePat = (RItem.lits (btick :: chars "``save:"), none) :: savePs := by
  rw [savePat_eq, savePs]

/-- Capture groups the cron regex extracts from a block of each kind. -/
def cronCaps : BlockSeg → Option Caps
  | BlockSeg.cronB b => some [(1, b)]
  | _ => none

/-- Capture groups the save regex extracts from a block of each kind. -/
def saveCaps : BlockSeg → Option Caps
  | BlockSeg.saveB f b => some [(1, f), (2, b)]
  | _ => none

/-- Capture groups the memory regex extracts from a block of each kind. -/
def memCaps : BlockSeg → Option Caps
  | BlockSeg.memB b => some [(1, b)]
  | _ => none

/-- The body of a cron block segment. -/
def cronBody : BlockSeg → Option (List Char)
  | BlockSeg.cronB b => some b
  | _ => none

/-- The filename and body of a save block segment. -/
def saveData : BlockSeg → Option SaveBlock
  | BlockSeg.saveB f b => some ⟨f, b⟩
  | _ => none

/-- The body of a memory block segment. -/
def memBody : BlockSeg → Option (List Char)
  | BlockSeg.memB b => some b
  | _ => none

/-- Filename accepted whole by the save regex: nonempty, without
whitespace, and without a backtick. -/
def saveName (f : List Char) : Prop :=
  f ≠ [] ∧ (∀ c ∈ f, rustWs c = false) ∧ btick ∉ f

instance (f : List Char) : Decidable (saveName f) :=
  inferInstanceAs (Decidable (_ ∧ _ ∧ _))

/-- A well-formed block segment: a single-line backtick-free body, and for
a save block a well-formed filename. -/
def segWf : BlockSeg → Prop
  | BlockSeg.cronB b => lineBody b ∧ btick ∉ b
  | BlockSeg.saveB f b => (lineBody b ∧ btick ∉ b) ∧ saveName f
  | BlockSeg.memB b => lineBody b ∧ btick ∉ b

instance : (sg : BlockSeg) → Decidable (segWf sg)
  | BlockSeg.cronB _ => inferInstanceAs (Decidable (_ ∧ _))
  | BlockSeg.saveB _ _ => inferInstanceAs (Decidable (_ ∧ _))
  | BlockSeg.memB _ => inferInstanceAs (Decidable (_ ∧ _))

/-- Prose safe for all three patterns, even when a closing fence directly
precedes it. -/
def proseOk (p : List Char) : Prop :=
  proseFor (chars "```cron") (chars "```" ++ p) ∧
  proseFor (chars "```save:") (chars "```" ++ p) ∧
  proseFor (chars "```memory") (chars "```" ++ p)

instance (p : List Char) : Decidable (proseOk p) :=
  inferInstanceAs (Decidable (_ ∧ _ ∧ _))

/-- The full chunk of a scanned-over block up to its closing fence is safe
prose for any backtick-headed literal, when its opening line is and its
body has no backtick. -/
theorem proseFor_block_chunk {l openL b : List Char}
    (ho : proseFor (btick :: l) openL) (hb : btick ∉ b) :
    proseFor (btick :: l) (openL ++ ('\n' :: (b ++ ['\n']))) := by
  refine proseFor_append ho ?_
  show proseFor (btick :: l) (['\n'] ++ (b ++ ['\n']))
  refine proseFor_append (proseFor_btickfree (by decide)) ?_
  exact proseFor_append (proseFor_btickfree (fun c hc he => hb (he ▸ hc)))
    (proseFor_btickfree (by decide))

/-- Assembly only looks at the keep switch pointwise. -/
theorem mtext_congr {k1 k2 : BlockSeg → Bool} (h : ∀ sg, k1 sg = k2 sg) :
    ∀ (segs : List PSeg) (tail : List Char), mtext k1 segs tail = mtext k2 segs tail := by
  intro segs
  induction segs with
  | nil => intro tail; rfl
  | cons s segs ih =>
    intro tail
    obtain ⟨p, sg⟩ := s
    rw [mtext, mtext, h sg, ih tail]

/-- The cron regex over an assembled response: it finds exactly the kept
cron blocks with the body captured verbatim, and removing its matches
deletes exactly those blocks. -/
theorem cron_mtext (keep : BlockSeg → Bool) (segs : List PSeg) (tail : List Char)
    (hP : ∀ s ∈ segs, proseOk s.1) (hW : ∀ s ∈ segs, segWf s.2) (ht : proseOk tail) :
    findAll cronPat (mtext keep segs tail) =
      segs.filterMap (fun s => if keep s.2 then cronCaps s.2 else none) ∧
    replaceAll cronPat (mtext keep segs tail) =
      mtext (fun sg => keep sg && (cronCaps sg).isNone) segs tail := by
  have hHP : ∀ s ∈ segs, proseFor (btick :: chars "``cron") (chars "```" ++ s.1) := by
    intro s hs
    rw [← cronLit_eq]
    exact (hP s hs).1
  have hHT : proseFor (btick :: chars "``cron") (chars "```" ++ tail) := by
    rw [← cronLit_eq]
    exact ht.1
  have hHM : ∀ s ∈ segs, keep s.2 = true → ∀ caps, cronCaps s.2 = some caps → ∀ X,
      matchSeq ((RItem.lits (btick :: chars "``cron"), none) :: cronPs)
        (blockText (segOpen s.2) (segBody s.2) X) = some (caps, X) := by
    rintro ⟨p, sg⟩ hs _ caps hcaps X
    cases sg with
    | cronB b =>
      have hc2 : some [(1, b)] = some caps := hcaps
      cases hc2
      rw [← cronPat_ps]
      show matchSeq cronPat (blockText (chars "```cron") b X) = some ([(1, b)], X)
      rw [cronPat]
      exact matchSeq_block (chars "```cron") 1 b X (hW _ hs).1
    | saveB f b => cases hcaps
    | memB b => cases hcaps
  have hHS : ∀ s ∈ segs, keep s.2 = true → cronCaps s.2 = none →
      proseFor (btick :: chars "``cron")
        (segOpen s.2 ++ ('\n' :: (segBody s.2 ++ ['\n']))) := by
    rintro ⟨p, sg⟩ hs _ hnone
    cases sg with
    | cronB b => cases hnone
    | saveB f b =>
      refine proseFor_block_chunk ?_ (hW _ hs).1.2
      show proseFor (btick :: chars "``cron") (chars "```save:" ++ f)
      exact proseFor_append (by decide)
        (proseFor_btickfree (fun c hc he => (hW _ hs).2.2.2 (he ▸ hc)))
    | memB b =>
      refine proseFor_block_chunk ?_ (hW _ hs).2
      show proseFor (btick :: chars "``cron") (chars "```memory")
      decide
  refine ⟨?_, ?_⟩
  · rw [findAll, cronPat_ps]
    exact findAllAux_mtext btick (chars "``cron") none cronPs keep cronCaps
      segs.length segs tail le_rfl hHP hHM hHS hHT _ (Nat.lt_succ_self _)
  · rw [replaceAll, cronPat_ps]
    exact replaceAllAux_mtext btick (chars "``cron") none cronPs keep cronCaps
      segs.length segs tail le_rfl hHP hHM hHS hHT _ (Nat.lt_succ_self _)

/-- The save regex over an assembled response: it finds exactly the kept
save blocks with filename and body captured verbatim, and removing its
matches deletes exactly those blocks. -/
theorem save_mtext (keep : BlockSeg → Bool) (segs : List PSeg) (tail : List Char)
    (hP : ∀ s ∈ segs, proseOk s.1) (hW : ∀ s ∈ segs, segWf s.2) (ht : proseOk tail) :
    findAll savePat (mtext keep segs tail) =
      segs.filterMap (fun s => if keep s.2 then saveCaps s.2 else none) ∧
    replaceAll savePat (mtext keep segs tail) =
      mtext (fun sg => keep sg && (saveCaps sg).isNone) segs tail := by
  have hHP : ∀ s ∈ segs, proseFor (btick :: chars "``save:") (chars "```" ++ s.1) := by
    intro s hs
    rw [← saveLit_eq]
    exact (hP s hs).2.1
  have hHT : proseFor (btick :: chars "``save:") (chars "```" ++ tail) := by
    rw [← saveLit_eq]
    exact ht.2.1
  have hHM : ∀ s ∈ segs, keep s.2 = true → ∀ caps, saveCaps s.2 = some caps → ∀ X,
      matchSeq ((RItem.lits (btick :: chars "``save:"), none) :: savePs)
        (blockText (segOpen s.2) (segBody s.2) X) = some (caps, X) := by
    rintro ⟨p, sg⟩ hs _ caps hcaps X
    cases sg with
    | cronB b => cases hcaps
    | saveB f b =>
      obtain ⟨f0, f', rfl⟩ := List.exists_cons_of_ne_nil (hW _ hs).2.1
      have hc2 : some [(1, f0 :: f'), (2, b)] = some caps := hcaps
      cases hc2
      rw [← savePat_ps]
      show matchSeq savePat (blockText (chars "```save:" ++ (f0 :: f')) b X) =
        some ([(1, f0 :: f'), (2, b)], X)
      exact matchSeq_save_block f0 f' b X (hW _ hs).2.2.1 (hW _ hs).1.1
    | memB b => cases hcaps
  have hHS : ∀ s ∈ segs, keep s.2 = true → saveCaps s.2 = none →
      proseFor (btick :: chars "``save:")
        (segOpen s.2 ++ ('\n' :: (segBody s.2 ++ ['\n']))) := by
    rintro ⟨p, sg⟩ hs _ hnone
    cases sg with
    | cronB b =>
      refine proseFor_block_chunk ?_ (hW _ hs).2
      show proseFor (btick :: chars "``save:") (chars "```cron")
      decide
    | saveB f b => cases hnone
    | memB b =>
      refine proseFor_block_chunk ?_ (hW _ hs).2
      show proseFor (btick :: chars "``save:") (chars "```memory")
      decide
  refine ⟨?_, ?_⟩
  · rw [findAll, savePat_ps]
    exact findAllAux_mtext btick (chars "``save:") none savePs keep saveCaps
      segs.length segs tail le_rfl hHP hHM hHS hHT _ (Nat.lt_succ_self _)
  · rw [replaceAll, savePat_ps]
    exact replaceAllAux_mtext btick (chars "``save:") none savePs keep saveCaps
      segs.length segs tail le_rfl hHP hHM hHS hHT _ (Nat.lt_succ_self _)

/-- The memory regex over an assembled response: it finds exactly the kept
memory blocks with the body captured verbatim, and removing its matches
deletes exactly those blocks. -/
theorem mem_mtext (keep : BlockSeg → Bool) (segs : List PSeg) (tail : List Char)
    (hP : ∀ s ∈ segs, proseOk s.1) (hW : ∀ s ∈ segs, segWf s.2) (ht : proseOk tail) :
    findAll memPat (mtext keep segs tail) =
      segs.filterMap (fun s => if keep s.2 then memCaps s.2 else none) ∧
    replaceAll memPat (mtext keep segs tail) =
      mtext (fun sg => keep sg && (memCaps sg).isNone) segs tail := by
  have hHP : ∀ s ∈ segs, proseFor (btick :: chars "``memory") (chars "```" ++ s.1) := by
    intro s hs
    rw [← memLit_eq]
    exact (hP s hs).2.2
  have hHT : proseFor (btick :: chars "``memory") (chars "```" ++ tail) := by
    rw [← memLit_eq]
    exact ht.2.2
  have hHM : ∀ s ∈ segs, keep s.2 = true → ∀ caps, memCaps s.2 = some caps → ∀ X,
      matchSeq ((RItem.lits (btick :: chars "``memory"), none) :: cronPs)
        (blockText (segOpen s.2) (segBody s.2) X) = some (caps, X) := by
    rintro ⟨p, sg⟩ hs _ caps hcaps X
    cases sg with
    | cronB b => cases hcaps
    | saveB f b => cases hcaps
    | memB b =>
      have hc2 : some [(1, b)] = some caps := hcaps
      cases hc2
      rw [← memPat_ps]
      show matchSeq memPat (blockText (chars "```memory") b X) = some ([(1, b)], X)
      rw [memPat]
      exact matchSeq_block (chars "```memory") 1 b X (hW _ hs).1
  have hHS : ∀ s ∈ segs, keep s.2 = true → memCaps s.2 = none →
      proseFor (btick :: chars "``memory")
        (segOpen s.2 ++ ('\n' :: (segBody s.2 ++ ['\n']))) := by
    rintro ⟨p, sg⟩ hs _ hnone
    cases sg with
    | cronB b =>
      refine proseFor_block_chunk ?_ (hW _ hs).2
      show proseFor (btick :: chars "``memory") (chars "```cron")
      decide
    | saveB f b =>
      refine proseFor_block_chunk ?_ (hW _ hs).1.2
      show proseFor (btick :: chars "``memory") (chars "```save:" ++ f)
      exact proseFor_append (by decide)
        (proseFor_btickfree (fun c hc he => (hW _ hs).2.2.2 (he ▸ hc)))
    | memB b => cases hnone
  refine ⟨?_, ?_⟩
  · rw [findAll, memPat_ps]
    exact findAllAux_mtext btick (chars "``memory") none cronPs keep memCaps
      segs.length segs tail le_rfl hHP hHM hHS hHT _ (Nat.lt_succ_self _)
  · rw [replaceAll, memPat_ps]
    exact replaceAllAux_mtext btick (chars "``memory") none cronPs keep memCaps
      segs.length segs tail le_rfl hHP hHM hHS hHT _ (Nat.lt_succ_self _)

/-- A cron-shaped block whose body spans two lines never matches at its
opening fence: the lazy dot run cannot cross the inner newline, and the
line after it blocks the closing fence. -/
theorem matchSeq_cron_two_line (b1 b2 rest : List Char)
    (h1 : lineBody b1) (h2 : lineBody b2) (hbt2 : btick ∉ b2) :
    matchSeq cronPat (blockText (chars "```cron") (b1 ++ '\n' :: b2) rest) = none := by
  rw [cronPat, blockText, matchSeq_lits_cons _ _ _ _ (isPre_append_self _ _),
    List.drop_left, map_addCap_none]
  have hsh : (b1 ++ '\n' :: b2) ++ ('\n' :: (chars "```" ++ rest)) =
      b1 ++ ('\n' :: (b2 ++ ('\n' :: (chars "```" ++ rest)))) := by
    rw [List.append_assoc]
    rfl
  rw [hsh]
  obtain ⟨wsp, c0, b1', heq, hws, hc0⟩ := exists_ws_split h1.2
  have hwl : wsp.length < b1.length := by
    rw [heq, List.length_append, List.length_cons]
    omega
  have hin : matchSeq [(RItem.starL nonNl, some 1), (RItem.lits ['\n'], none),
      (RItem.starG rustWs, none), (RItem.lits (chars "```"), none)]
      (b1 ++ ('\n' :: (b2 ++ ('\n' :: (chars "```" ++ rest))))) = none := by
    rw [matchSeq_starL]
    have hm1 : maxRun nonNl
        (b1 ++ ('\n' :: (b2 ++ ('\n' :: (chars "```" ++ rest))))) = b1.length := by
      apply maxRun_all_stop
      · intro c hc
        simp only [nonNl, ne_eq, decide_eq_true_eq]
        exact fun h => h1.1 (h ▸ hc)
      · simp [nonNl]
    rw [hm1]
    apply firstSome_none
    intro j hj
    rw [List.mem_range] at hj
    rcases Nat.lt_or_ge j b1.length with hlt | hge
    · rw [matchSeq_nl_fail none _ b1 _ j hlt h1.1]
      rfl
    · have hj2 : j = b1.length := by omega
      subst hj2
      rw [List.drop_left, matchSeq_lits_cons _ _ _ _ (by simp [isPre]),
        List.length_singleton, List.drop_succ_cons, List.drop_zero]
      have hin2 : matchSeq [(RItem.starG rustWs, none), (RItem.lits (chars "```"), none)]
          (b2 ++ ('\n' :: (chars "```" ++ rest))) = none := by
        rw [matchSeq_starG]
        obtain ⟨wsp2, c2, b2', heq2, hws2, hc2⟩ := exists_ws_split h2.2
        have hwl2 : wsp2.length < b2.length := by
          rw [heq2, List.length_append, List.length_cons]
          omega
        have hm2 : maxRun rustWs (b2 ++ ('\n' :: (chars "```" ++ rest))) =
            wsp2.length := by
          rw [show b2 ++ ('\n' :: (chars "```" ++ rest)) =
              wsp2 ++ (c2 :: (b2' ++ ('\n' :: (chars "```" ++ rest)))) from by
              rw [heq2, List.append_assoc, List.cons_append],
            maxRun_all_stop wsp2 _ hws2 hc2]
        rw [hm2]
        apply firstSome_none
        intro i hi
        rw [List.mem_reverse, List.mem_range] at hi
        rw [show chars "```" = btick :: chars "``" from by decide,
          matchSeq_headlit_fail btick (chars "``") none _ b2 _ i (by omega)
            (fun c hc he => hbt2 (he ▸ hc))]
        rfl
      rw [hin2]
      rfl
  rw [matchSeq_starG]
  have hm : maxRun rustWs
      ('\n' :: (b1 ++ ('\n' :: (b2 ++ ('\n' :: (chars "```" ++ rest)))))) =
      wsp.length + 1 := by
    rw [maxRun_cons_pos _ (by decide),
      show b1 ++ ('\n' :: (b2 ++ ('\n' :: (chars "```" ++ rest)))) =
        wsp ++ (c0 :: (b1' ++ ('\n' :: (b2 ++ ('\n' :: (chars "```" ++ rest)))))) from by
        rw [heq, List.append_assoc, List.cons_append],
      maxRun_all_stop wsp _ hws hc0]
  rw [hm]
  apply firstSome_none
  intro k hk
  rw [List.mem_reverse, List.mem_range] at hk
  cases k with
  | zero =>
    rw [List.drop_zero, matchSeq_lits_cons _ _ _ _ (by simp [isPre]),
      List.length_singleton, List.drop_succ_cons, List.drop_zero, hin]
    rfl
  | succ k' =>
    rw [List.drop_succ_cons, matchSeq_nl_fail none _ b1 _ k' (by omega) h1.1]
    rfl

/-- No cron match anywhere in a response that is safe prose around one
cron block whose body spans two lines. -/
theorem findSplit_cron_two_line (p0 b1 b2 tail : List Char)
    (hp0 : proseFor (chars "```cron") (chars "```" ++ p0))
    (h1 : lineBody b1) (hbt1 : btick ∉ b1) (h2 : lineBody b2) (hbt2 : btick ∉ b2)
    (ht : proseFor (chars "```cron") (chars "```" ++ tail)) :
    findSplit cronPat
      (p0 ++ blockText (chars "```cron") (b1 ++ '\n' :: b2) tail) = none := by
  have hp0' : proseFor (btick :: chars "``cron") p0 := by
    rw [← cronLit_eq]
    exact proseFor_of_append_left hp0
  have ht' : proseFor (btick :: chars "``cron") (chars "```" ++ tail) := by
    rw [← cronLit_eq]
    exact ht
  have hA : proseFor (btick :: chars "``cron")
      (chars "``cron" ++ ('\n' :: (b1 ++ ('\n' :: (b2 ++ ['\n']))))) := by
    refine proseFor_append (by decide) ?_
    show proseFor (btick :: chars "``cron")
      (['\n'] ++ (b1 ++ (['\n'] ++ (b2 ++ ['\n']))))
    refine proseFor_append (proseFor_btickfree (by decide)) ?_
    refine proseFor_append (proseFor_btickfree (fun c hc he => hbt1 (he ▸ hc))) ?_
    refine proseFor_append (proseFor_btickfree (by decide)) ?_
    exact proseFor_append (proseFor_btickfree (fun c hc he => hbt2 (he ▸ hc)))
      (proseFor_btickfree (by decide))
  have hmz : matchSeq ((RItem.lits (btick :: chars "``cron"), none) :: cronPs)
      (btick :: (chars "``cron" ++ ('\n' :: ((b1 ++ '\n' :: b2) ++
        ('\n' :: (chars "```" ++ tail)))))) = none := by
    rw [← cronPat_ps, ← List.cons_append, ← cronLit_eq]
    exact matchSeq_cron_two_line b1 b2 tail h1 h2 hbt2
  have hstep : findSplit ((RItem.lits (btick :: chars "``cron"), none) :: cronPs)
      (blockText (chars "```cron") (b1 ++ '\n' :: b2) tail) = none := by
    rw [show blockText (chars "```cron") (b1 ++ '\n' :: b2) tail =
        btick :: (chars "``cron" ++ ('\n' :: ((b1 ++ '\n' :: b2) ++
          ('\n' :: (chars "```" ++ tail))))) from by
      rw [blockText, cronLit_eq, List.cons_append]]
    have hZ : findSplit ((RItem.lits (btick :: chars "``cron"), none) :: cronPs)
        (chars "``cron" ++ ('\n' :: ((b1 ++ '\n' :: b2) ++
          ('\n' :: (chars "```" ++ tail))))) = none := by
      rw [show chars "``cron" ++ ('\n' :: ((b1 ++ '\n' :: b2) ++
          ('\n' :: (chars "```" ++ tail)))) =
          (chars "``cron" ++ ('\n' :: (b1 ++ ('\n' :: (b2 ++ ['\n']))))) ++
            (chars "```" ++ tail) from by
        simp [List.append_assoc]]
      rw [findSplit_skip_proseFor btick (chars "``cron") none cronPs _ _ hA,
        findSplit_none_proseFor btick (chars "``cron") none cronPs _ ht']
      rfl
    rw [findSplit]
    rw [hmz]
    show (findSplit ((RItem.lits (btick :: chars "``cron"), none) :: cronPs)
        (chars "``cron" ++ ('\n' :: ((b1 ++ '\n' :: b2) ++
          ('\n' :: (chars "```" ++ tail)))))).map
        (fun r => (btick :: r.1, r.2.1, r.2.2)) = none
    rw [hZ]
    rfl
  rw [cronPat_ps, findSplit_skip_proseFor btick (chars "``cron") none cronPs p0 _ hp0',
    hstep]
  rfl

/-- cron block discovery over an assembled response, bodies verbatim. -/
theorem cronBodies_mtext (segs : List PSeg) (tail : List Char)
    (hP : ∀ s ∈ segs, proseOk s.1) (hW : ∀ s ∈ segs, segWf s.2) (ht : proseOk tail) :
    cronBlockBodies (mtext keepAll segs tail) =
      segs.filterMap (fun s => cronBody s.2) := by
  rw [cronBlockBodies, (cron_mtext keepAll segs tail hP hW ht).1, List.map_filterMap]
  refine congrArg (segs.filterMap ·) (funext fun s => ?_)
  obtain ⟨p, sg⟩ := s
  cases sg <;> rfl

/-- save block discovery over an assembled response, filename and content
verbatim. -/
theorem saveBlocks_mtext (segs : List PSeg) (tail : List Char)
    (hP : ∀ s ∈ segs, proseOk s.1) (hW : ∀ s ∈ segs, segWf s.2) (ht : proseOk tail) :
    parse_save_blocks (mtext keepAll segs tail) =
      segs.filterMap (fun s => saveData s.2) := by
  rw [parse_save_blocks, (save_mtext keepAll segs tail hP hW ht).1, List.map_filterMap]
  refine congrArg (segs.filterMap ·) (funext fun s => ?_)
  obtain ⟨p, sg⟩ := s
  cases sg <;> rfl

/-- memory block discovery over an assembled response, bodies verbatim. -/
theorem memBodies_mtext (segs : List PSeg) (tail : List Char)
    (hP : ∀ s ∈ segs, proseOk s.1) (hW : ∀ s ∈ segs, segWf s.2) (ht : proseOk tail) :
    memBlockBodies (mtext keepAll segs tail) =
      segs.filterMap (fun s => memBody s.2) := by
  rw [memBlockBodies, (mem_mtext keepAll segs tail hP hW ht).1, List.map_filterMap]
  refine congrArg (segs.filterMap ·) (funext fun s => ?_)
  obtain ⟨p, sg⟩ := s
  cases sg <;> rfl

/-- parse_memory_blocks keeps every discovered body: a well-formed body
has a non-whitespace character, so its trim is nonempty. -/
theorem parse_memory_mtext (segs : List PSeg) (tail : List Char)
    (hP : ∀ s ∈ segs, proseOk s.1) (hW : ∀ s ∈ segs, segWf s.2) (ht : proseOk tail) :
    parse_memory_blocks (mtext keepAll segs tail) =
      (segs.filterMap (fun s => memBody s.2)).map rustTrim := by
  rw [parse_memory_blocks, memBodies_mtext segs tail hP hW ht]
  refine List.filter_eq_self.mpr ?_
  intro x hx
  rw [List.mem_map] at hx
  obtain ⟨b, hb, rfl⟩ := hx
  rw [List.mem_filterMap] at hb
  obtain ⟨s, hs, hmem⟩ := hb
  have hlb : lineBody b := by
    obtain ⟨p, sg⟩ := s
    cases sg with
    | cronB b0 => cases hmem
    | saveB f b0 => cases hmem
    | memB b0 =>
      have h2 : some b0 = some b := hmem
      cases h2
      exact (hW _ hs).1
  obtain ⟨c, hc, hcw⟩ := hlb.2
  have hne := trim_ne_nil hc hcw
  cases hE : (rustTrim b).isEmpty
  · rfl
  · exact absurd (List.isEmpty_iff.mp hE) hne

/-- After removing blocks of all three kinds nothing is kept. -/
theorem mtext_all_removed (segs : List PSeg) (tail : List Char) :
    mtext (fun sg => ((keepAll sg && (cronCaps sg).isNone) && (saveCaps sg).isNone) &&
      (memCaps sg).isNone) segs tail = mtext (fun _ => false) segs tail :=
  mtext_congr (fun sg => by cases sg <;> rfl) segs tail

/-- C3 (corrected): only blocks whose body is a single line are
discovered.  Over any response assembled from safe prose and well-formed
blocks of the three kinds — each body one newline-free line holding a
non-whitespace character and no backtick, each save filename nonempty,
whitespace-free and backtick-free — every parse function discovers exactly
its own blocks, in order, with filename and body captured verbatim
(leading and trailing whitespace of the body included); and a cron block
whose body spans two such lines is never discovered: it yields no job and
no error. -/
theorem single_line_blocks_discovered :
    (∀ (segs : List PSeg) (tail : List Char),
      (∀ s ∈ segs, proseOk s.1) → (∀ s ∈ segs, segWf s.2) → proseOk tail →
      cronBlockBodies (mtext keepAll segs tail) =
        segs.filterMap (fun s => cronBody s.2) ∧
      parse_save_blocks (mtext keepAll segs tail) =
        segs.filterMap (fun s => saveData s.2) ∧
      memBlockBodies (mtext keepAll segs tail) =
        segs.filterMap (fun s => memBody s.2) ∧
      parse_memory_blocks (mtext keepAll segs tail) =
        (segs.filterMap (fun s => memBody s.2)).map rustTrim) ∧
    (∀ (p0 b1 b2 tail : List Char), proseOk p0 →
      lineBody b1 → btick ∉ b1 → lineBody b2 → btick ∉ b2 → proseOk tail →
      cronBlockBodies
        (p0 ++ blockText (chars "```cron") (b1 ++ '\n' :: b2) tail) = [] ∧
      parse_cron_blocks
        (p0 ++ blockText (chars "```cron") (b1 ++ '\n' :: b2) tail) = ([], [])) := by
  constructor
  · intro segs tail hP hW ht
    exact ⟨cronBodies_mtext segs tail hP hW ht, saveBlocks_mtext segs tail hP hW ht,
      memBodies_mtext segs tail hP hW ht, parse_memory_mtext segs tail hP hW ht⟩
  · intro p0 b1 b2 tail hp0 h1 hbt1 h2 hbt2 ht
    have hns := findSplit_cron_two_line p0 b1 b2 tail hp0.1 h1 hbt1 h2 hbt2 ht.1
    have hbodies : cronBlockBodies
        (p0 ++ blockText (chars "```cron") (b1 ++ '\n' :: b2) tail) = [] := by
      rw [cronBlockBodies, findAll, findAllAux_nil _ _ _ hns]
      rfl
    refine ⟨hbodies, ?_⟩
    rw [parse_cron_blocks, hbodies]
    rfl

/-- Witness for C3: one block of each kind separated by prose (the cron
body with leading whitespace, the memory body with surrounding whitespace,
both captured verbatim), and a two-line JSON cron body that is not
discovered. -/
theorem single_line_blocks_discovered_witness :
    (cronBlockBodies (mtext keepAll
        [(chars "Plan:\n", BlockSeg.cronB (chars "  \x7b\x22a\x22: 1\x7d")),
         (chars "\nand\n", BlockSeg.saveB (chars "n.txt") (chars "x = 1")),
         (chars "\nthen\n", BlockSeg.memB (chars " likes tea "))] (chars "\nok")) =
        [chars "  \x7b\x22a\x22: 1\x7d"] ∧
      parse_save_blocks (mtext keepAll
        [(chars "Plan:\n", BlockSeg.cronB (chars "  \x7b\x22a\x22: 1\x7d")),
         (chars "\nand\n", BlockSeg.saveB (chars "n.txt") (chars "x = 1")),
         (chars "\nthen\n", BlockSeg.memB (chars " likes tea "))] (chars "\nok")) =
        [⟨chars "n.txt", chars "x = 1"⟩] ∧
      memBlockBodies (mtext keepAll
        [(chars "Plan:\n", BlockSeg.cronB (chars "  \x7b\x22a\x22: 1\x7d")),
         (chars "\nand\n", BlockSeg.saveB (chars "n.txt") (chars "x = 1")),
         (chars "\nthen\n", BlockSeg.memB (chars " likes tea "))] (chars "\nok")) =
        [chars " likes tea "] ∧
      parse_memory_blocks (mtext keepAll
        [(chars "Plan:\n", BlockSeg.cronB (chars "  \x7b\x22a\x22: 1\x7d")),
         (chars "\nand\n", BlockSeg.saveB (chars "n.txt") (chars "x = 1")),
         (chars "\nthen\n", BlockSeg.memB (chars " likes tea "))] (chars "\nok")) =
        [chars "likes tea"]) ∧
    (cronBlockBodies (chars "See:" ++
        blockText (chars "```cron") (chars "\x7b" ++ '\n' :: chars "\x7d")
          (chars " end")) = [] ∧
      parse_cron_blocks (chars "See:" ++
        blockText (chars "```cron") (chars "\x7b" ++ '\n' :: chars "\x7d")
          (chars " end")) = ([], [])) := by
  constructor
  · obtain ⟨hc, hs, hm, hp⟩ := single_line_blocks_discovered.1
      [(chars "Plan:\n", BlockSeg.cronB (chars "  \x7b\x22a\x22: 1\x7d")),
       (chars "\nand\n", BlockSeg.saveB (chars "n.txt") (chars "x = 1")),
       (chars "\nthen\n", BlockSeg.memB (chars " likes tea "))] (chars "\nok")
      (by decide) (by decide) (by decide)
    exact ⟨hc.trans (by decide), hs.trans (by decide), hm.trans (by decide),
      hp.trans (by decide)⟩
  · exact single_line_blocks_discovered.2 (chars "See:") (chars "\x7b") (chars "\x7d")
      (chars " end") (by decide) (by decide) (by decide) (by decide) (by decide)
      (by decide)

/-- A cron block whose body is a two-line JSON object is not discovered at
all: no body, no job and no error (counterexample to discovery of
multi-line bodies). -/
theorem multiline_block_not_discovered :
    cronBlockBodies (chars "```cron\n\x7b\n\x7d\n```") = [] ∧
    parse_cron_blocks (chars "```cron\n\x7b\n\x7d\n```") = ([], []) := by
  constructor
  · decide
  · decide

/-- C9: clean_response removes every cron, save and memory block and
trims: on any text where none of the three regexes matches it returns the
trimmed input unchanged, and on any response assembled from safe prose
(which may contain fenced code blocks of other languages) and well-formed
blocks of the three kinds it returns the trimmed assembly with every block
removed and all the prose kept. -/
theorem clean_response_strips_blocks :
    (∀ text : List Char, findSplit cronPat text = none →
      findSplit savePat text = none → findSplit memPat text = none →
      clean_response text = rustTrim text) ∧
    (∀ (segs : List PSeg) (tail : List Char),
      (∀ s ∈ segs, proseOk s.1) → (∀ s ∈ segs, segWf s.2) → proseOk tail →
      clean_response (mtext keepAll segs tail) =
        rustTrim (mtext (fun _ => false) segs tail)) := by
  constructor
  · intro text h1 h2 h3
    rw [clean_response, replaceAll_id _ _ h1, replaceAll_id _ _ h2,
      replaceAll_id _ _ h3]
  · intro segs tail hP hW ht
    rw [clean_response, (cron_mtext keepAll segs tail hP hW ht).2,
      (save_mtext _ segs tail hP hW ht).2, (mem_mtext _ segs tail hP hW ht).2,
      mtext_all_removed]

/-- Witness for C9: a matchless text is only trimmed, and a response with
a python block in the prose and one block of each kind keeps exactly the
prose. -/
theorem clean_response_strips_blocks_witness :
    clean_response (chars "  hello world ") = chars "hello world" ∧
    clean_response (mtext keepAll
      [(chars "Hi!\n```python\nx = 1\n```\nA", BlockSeg.cronB (chars "\x7b\x22a\x22: 1\x7d")),
       (chars "\nB", BlockSeg.saveB (chars "f.txt") (chars "data")),
       (chars "\nC", BlockSeg.memB (chars "likes tea"))] (chars "\nDone")) =
      chars "Hi!\n```python\nx = 1\n```\nA\nB\nC\nDone" := by
  constructor
  · rw [clean_response_strips_blocks.1 (chars "  hello world ")
      (by decide) (by decide) (by decide)]
    decide
  · rw [clean_response_strips_blocks.2
      [(chars "Hi!\n```python\nx = 1\n```\nA", BlockSeg.cronB (chars "\x7b\x22a\x22: 1\x7d")),
       (chars "\nB", BlockSeg.saveB (chars "f.txt") (chars "data")),
       (chars "\nC", BlockSeg.memB (chars "likes tea"))] (chars "\nDone")
      (by decide) (by decide) (by decide)]
    decide

end Rustyclaw
